import Mathlib

/-!
# Add-on manager of Stellarium: `src/core/StelAddOnMgr.cpp`

A shallow embedding of `StelAddOnMgr` and theorems about it.

* Strings are Lean strings; `startsWith`, `endsWith` and `contains` of `QString` are
  defined on the character lists.
* `QHash<QString, AddOn*>` is an association list with the operations of Qt 5
  (`value`, `insert`, `remove`, `unite`); the objects behind the pointers are the records
  themselves, since `reloadCatalogues` builds all three hashes from fresh objects. A
  function that takes an `AddOn*` takes the record and gives back the record as the call
  leaves it; the record that a hash holds for the same pointer is not followed.
* The disk is a finite map from paths to contents together with the paths that cannot be
  opened for writing and the files that cannot be deleted. Directories are not modelled.
* A catalog document is its `name`, its `format` and its `add-ons` object, which maps an
  id to the attribute object that `insertAddonInJson` writes; a JSON object is the list of
  its members.
* `emit` appends to a log of signals; `qWarning` and `qDebug` have no counterpart.
-/

namespace StelAddOnMgr

/-! ## Strings -/

/-- `QString::startsWith`. -/
def startsWith (s p : String) : Bool := p.data.isPrefixOf s.data

/-- `QString::endsWith`. -/
def endsWith (s p : String) : Bool := p.data.isSuffixOf s.data

/-- Whether the characters `p` occur in `s` as a contiguous block. -/
def containsChars : List Char → List Char → Bool
  | [], p => p.isPrefixOf []
  | c :: cs, p => p.isPrefixOf (c :: cs) || containsChars cs p

/-- `QString::contains`. -/
def contains (s p : String) : Bool := containsChars s.data p.data

/-! ## The add-on entity (`AddOn.hpp`) -/

/-- Modelled from the spec: `AddOn::Type` (AddOn.hpp is not among the sources). The nine
types of the data model, and `INVALID` for a type string that is not known. -/
inductive AddOnType
  | PLUGIN_CATALOG
  | STAR_CATALOG
  | LANG_SKYCULTURE
  | LANG_STELLARIUM
  | TEXTURE
  | LANDSCAPE
  | SCRIPT
  | SKY_CULTURE
  | ADDON_CATALOG
  | INVALID
  deriving DecidableEq, Repr

/-- Modelled from the spec: `AddOn::Status` (AddOn.hpp is not among the sources), the
states of the installation state machine. -/
inductive Status
  | NotInstalled
  | Installing
  | FullyInstalled
  | PartiallyInstalled
  | InvalidFormat
  | Corrupted
  | UnableToRead
  | UnableToWrite
  | InvalidDestination
  | Restart
  | UnableToRemove
  deriving DecidableEq, Repr

/-- `AddOn::Authors`. -/
structure Authors where
  name : String
  email : String
  url : String
  deriving DecidableEq, Repr

/-- Modelled from the spec: the class `AddOn` (AddOn.hpp and AddOn.cpp are not among the
sources), one field for each getter that the manager calls. The date is the day number
of the `QDate`, the download size is in kilobytes. -/
structure AddOn where
  addOnId : String
  type : AddOnType
  status : Status
  checksum : String
  date : Int
  title : String
  description : String
  version : String
  licenseName : String
  licenseURL : String
  downloadURL : String
  downloadFilename : String
  downloadSize : Nat
  textures : List String
  installedFiles : List String
  authors : List Authors
  deriving DecidableEq, Repr

/-- Modelled from the spec: `AddOn::isValid` (AddOn.cpp is not among the sources): a
non-empty id, a known type, and a non-empty checksum unless the type is add-on-catalog. -/
def AddOn.isValid (a : AddOn) : Bool :=
  decide (a.addOnId ≠ "") && decide (a.type ≠ AddOnType.INVALID) &&
    (decide (a.type = AddOnType.ADDON_CATALOG) || decide (a.checksum ≠ ""))

/-- `AddOn::setStatus`. -/
def AddOn.setStatus (a : AddOn) (s : Status) : AddOn := { a with status := s }

/-- `AddOn::setInstalledFiles`. -/
def AddOn.setInstalledFiles (a : AddOn) (files : List String) : AddOn :=
  { a with installedFiles := files }

/-- The attribute object of an add-on in a catalog document or in a manifest, one field
for each key: `type`, `title`, `description`, `version`, `date`, `license`, `license-url`,
`download-url`, `download-filename`, `download-size`, `checksum`, `textures`, `status`,
`installed-files` and `authors`. The type string stands as the type it denotes, the date
string `yyyy.MM.dd` as the day number it denotes, the status code as the status; the
textures are one string. -/
structure Attributes where
  type : AddOnType
  title : String
  description : String
  version : String
  date : Int
  license : String
  licenseUrl : String
  downloadUrl : String
  downloadFilename : String
  downloadSize : Nat
  checksum : String
  textures : String
  status : Status
  installedFiles : List String
  authors : List Authors
  deriving DecidableEq, Repr

/-- The pieces of a list of characters between the occurrences of `sep`. -/
def splitChars (sep : Char) : List Char → List (List Char)
  | [] => [[]]
  | c :: cs =>
    if c = sep then [] :: splitChars sep cs
    else
      match splitChars sep cs with
      | [] => [[c]]
      | h :: t => (c :: h) :: t

/-- The lists of characters joined with `sep` between them. -/
def joinChars (sep : Char) : List (List Char) → List Char
  | [] => []
  | [x] => x
  | x :: y :: l => x ++ sep :: joinChars sep (y :: l)

/-- `QStringList::join(",")`. -/
def joinCommas (l : List String) : String :=
  String.mk (joinChars ',' (l.map String.data))

/-- Modelled from the spec: how the constructor of `AddOn` reads the attribute `textures`,
a comma-joined list (AddOn.cpp is not among the sources): the pieces between the commas,
none for the empty string. -/
def splitCommas (s : String) : List String :=
  if s = "" then [] else (splitChars ',' s.data).map String.mk

/-- The attributes that `insertAddonInJson` writes for an add-on (lines 502-528): the
values of the getters, the textures joined with commas. -/
def AddOn.attributes (a : AddOn) : Attributes :=
  { type := a.type
    title := a.title
    description := a.description
    version := a.version
    date := a.date
    license := a.licenseName
    licenseUrl := a.licenseURL
    downloadUrl := a.downloadURL
    downloadFilename := a.downloadFilename
    downloadSize := a.downloadSize
    checksum := a.checksum
    textures := joinCommas a.textures
    status := a.status
    installedFiles := a.installedFiles
    authors := a.authors }

/-- Modelled from the spec: the constructor `AddOn(addOnId, attributes)` (AddOn.cpp is not
among the sources): the entity has the given id and the attributes of the map. -/
def AddOn.new (addOnId : String) (attributes : Attributes) : AddOn :=
  { addOnId := addOnId
    type := attributes.type
    status := attributes.status
    checksum := attributes.checksum
    date := attributes.date
    title := attributes.title
    description := attributes.description
    version := attributes.version
    licenseName := attributes.license
    licenseURL := attributes.licenseUrl
    downloadURL := attributes.downloadUrl
    downloadFilename := attributes.downloadFilename
    downloadSize := attributes.downloadSize
    textures := splitCommas attributes.textures
    installedFiles := attributes.installedFiles
    authors := attributes.authors }

/-- The types for which lines 291-293 and 353-355 ask for a restart. -/
def requiresRestart (t : AddOnType) : Bool :=
  decide (t = AddOnType.PLUGIN_CATALOG) || decide (t = AddOnType.STAR_CATALOG) ||
    decide (t = AddOnType.LANG_SKYCULTURE) || decide (t = AddOnType.LANG_STELLARIUM) ||
    decide (t = AddOnType.TEXTURE)

/-! ## `QHash<QString, AddOn*>` -/

/-- The hash as the list of its items, the most recently inserted item of a key first. -/
abbrev QHash := List (String × AddOn)

namespace QHash

/-- `QHash::value`: the most recently inserted value of the key, `none` for the null
pointer that a missing key gives. -/
def value : QHash → String → Option AddOn
  | [], _ => none
  | (k, v) :: t, key => if k = key then some v else value t key

/-- `QHash::keys`. -/
def keys (h : QHash) : List String := h.map Prod.fst

/-- `QHash::contains`. -/
def containsKey (h : QHash) (key : String) : Bool := (value h key).isSome

/-- `QHash::remove`: removes all the items that have the key. -/
def remove (h : QHash) (key : String) : QHash := h.filter (fun e => decide (e.1 ≠ key))

/-- `QHash::insert`: replaces the value of the key when there is one. -/
def insert : QHash → String → AddOn → QHash
  | [], key, v => [(key, v)]
  | (k, w) :: t, key, v => if k = key then (k, v) :: t else (k, w) :: insert t key v

/-- `QHash::insertMulti`. -/
def insertMulti (h : QHash) (key : String) (v : AddOn) : QHash := (key, v) :: h

/-- `QHash::unite` of Qt 5: walks `other` from its end to its begin and `insertMulti`s
every item, so a key of both hashes is in the result several times and `value` gives the
item of `other`. -/
def unite (h other : QHash) : QHash :=
  other.foldr (fun e acc => insertMulti acc e.1 e.2) h

end QHash

/-! ## Files -/

/-- The JSON object of a catalog document, as far as it is read: `name`, `format` and
the `add-ons` object (id to attributes). -/
structure JsonDoc where
  name : String
  format : Int
  addons : List (String × Attributes)
  deriving DecidableEq, Repr

/-- The bytes of a file or of an archive entry: plain bytes (no JSON object), the JSON
object of a manifest (id to attributes), or a catalog document. -/
inductive Data
  | bytes (b : String)
  | json (members : List (String × Attributes))
  | catalog (doc : JsonDoc)
  deriving DecidableEq, Repr

/-- `QByteArray::isEmpty`. -/
def Data.isEmpty : Data → Bool
  | Data.bytes b => decide (b = "")
  | _ => false

/-- `QJsonDocument::fromJson(data).object()` read as a catalog: the empty object when
the data is no catalog document. -/
def Data.object : Data → JsonDoc
  | Data.catalog doc => doc
  | _ => { name := "", format := 0, addons := [] }

/-- `Stel::QZipReader::FileInfo`, together with what `fileData` gives for the entry. -/
structure FileInfo where
  filePath : String
  isFile : Bool
  data : Data
  deriving DecidableEq, Repr

/-- What a path holds: data, or a zip archive with its entries. -/
inductive Content
  | data (d : Data)
  | zip (entries : List FileInfo)
  deriving DecidableEq, Repr

/-- The bytes of the file as a catalog object. -/
def Content.object : Content → JsonDoc
  | Content.data d => d.object
  | Content.zip _ => { name := "", format := 0, addons := [] }

/-- The disk. -/
structure FileSys where
  files : List (String × Content)
  unwritable : List String
  undeletable : List String
  deriving DecidableEq, Repr

namespace FileSys

/-- The content of the file at `path`, `none` when there is no file. -/
def read (fs : FileSys) (path : String) : Option Content :=
  (fs.files.find? (fun e => decide (e.1 = path))).map Prod.snd

/-- `QFile::exists`. -/
def fileExists (fs : FileSys) (path : String) : Bool := (fs.read path).isSome

/-- Whether `QFile::open` for writing succeeds. -/
def canWrite (fs : FileSys) (path : String) : Bool := decide (path ∉ fs.unwritable)

/-- `QFile::remove`: whether the file was removed, and the disk afterwards. -/
def remove (fs : FileSys) (path : String) : Bool × FileSys :=
  if fs.fileExists path && decide (path ∉ fs.undeletable) then
    (true, { fs with files := fs.files.filter (fun e => decide (e.1 ≠ path)) })
  else (false, fs)

/-- Truncate and write: the file at `path` holds `c` afterwards. -/
def write (fs : FileSys) (path : String) (c : Content) : FileSys :=
  { fs with files := (path, c) :: fs.files.filter (fun e => decide (e.1 ≠ path)) }

end FileSys

/-! ## The manager -/

/-- The signals of the manager. -/
inductive Signal
  | updateTableViews
  | restartRequired
  | landscapesChanged
  | scriptsChanged
  | skyCulturesChanged
  deriving DecidableEq, Repr

/-- What the manager is constructed with and never changes: the directories of
`StelFileMgr`, the three catalog paths, the supported catalog version
(`ADDON_CATALOG_VERSION` of StelAddOnMgr.hpp), the MD5 digest of a content and its size
in bytes. -/
structure Env where
  userDir : String
  addonDir : String
  m_sAddonJsonPath : String
  m_sInstalledAddonsJsonPath : String
  m_sUserAddonJsonPath : String
  ADDON_CATALOG_VERSION : Int
  md5 : Content → String
  fileSize : Content → Nat

/-- The state of the manager and of its surroundings: the three hashes, the disk, the
add-ons that the download manager is downloading, and the signals emitted so far. -/
structure Mgr where
  m_addonsInstalled : QHash
  m_addonsAvailable : QHash
  m_addonsToUpdate : QHash
  fs : FileSys
  downloading : List String
  signals : List Signal
  deriving DecidableEq, Repr

/-- `emit`. -/
def Mgr.emit (st : Mgr) (s : Signal) : Mgr := { st with signals := st.signals ++ [s] }

/-- `StelAddOnMgr::loadAddonCatalog` (lines 104-140). -/
def loadAddonCatalog (env : Env) (fs : FileSys) (jsonPath : String) : QHash :=
  match fs.read jsonPath with
  | none => []
  | some c =>
    let json := c.object
    if json.name ≠ "Add-ons Catalog" ∨ json.format ≠ env.ADDON_CATALOG_VERSION then []
    else
      json.addons.foldl
        (fun addons e =>
          let addon := AddOn.new e.1 e.2
          if addon.isValid then QHash.insert addons addon.addOnId addon else addons)
        []

/-- The body of the `while` loop of `reloadCatalogues` (lines 81-98) for one item of
`m_addonsInstalled`, on the pair of `m_addonsAvailable` and `m_addonsToUpdate`. -/
def reloadStep (hashes : QHash × QHash) (i : String × AddOn) : QHash × QHash :=
  let addonId := i.1
  let addonInstalled := i.2
  match QHash.value hashes.1 addonId with
  | none => hashes
  | some addonAvailable =>
    if addonInstalled.checksum = addonAvailable.checksum ∨
        addonInstalled.date ≥ addonAvailable.date then
      (QHash.remove hashes.1 addonId, hashes.2)
    else if addonInstalled.date < addonAvailable.date then
      (QHash.remove hashes.1 addonId, QHash.insert hashes.2 addonId addonAvailable)
    else hashes

/-- The official catalog united with the user catalog (lines 72-75). -/
def mergedCatalog (env : Env) (fs : FileSys) : QHash :=
  QHash.unite (loadAddonCatalog env fs env.m_sAddonJsonPath)
    (loadAddonCatalog env fs env.m_sUserAddonJsonPath)

/-- `StelAddOnMgr::reloadCatalogues` (lines 61-102). -/
def reloadCatalogues (env : Env) (st : Mgr) : Mgr :=
  let installed := loadAddonCatalog env st.fs env.m_sInstalledAddonsJsonPath
  let hashes := installed.foldl reloadStep (mergedCatalog env st.fs, [])
  Mgr.emit
    { st with
      m_addonsInstalled := installed
      m_addonsAvailable := hashes.1
      m_addonsToUpdate := hashes.2 }
    Signal.updateTableViews

/-! ## Paths -/

/-- The components of a path, split at every `/`. -/
def splitPath : List Char → List (List Char)
  | [] => [[]]
  | c :: cs =>
    if c = '/' then [] :: splitPath cs
    else
      match splitPath cs with
      | [] => [[c]]
      | h :: t => (c :: h) :: t

/-- One component on the stack of components resolved so far (last one first): an empty
component and `.` change nothing, `..` drops the last component. -/
def resolveStep (stack : List (List Char)) (comp : List Char) : List (List Char) :=
  if comp = [] ∨ comp = ['.'] then stack
  else if comp = ['.', '.'] then stack.tail
  else comp :: stack

/-- `QDir::cleanPath` of an absolute path: the path with `.`, `..` and repeated
separators resolved. -/
def cleanPath (path : String) : String :=
  String.mk ('/' :: List.intercalate ['/'] ((splitPath path.data).foldl resolveStep []).reverse)

/-- `QFileInfo::absoluteFilePath` of an absolute path, which Qt cleans. -/
def absoluteFilePath (path : String) : String := cleanPath path

/-- `QFileInfo::fileName`: what follows the last `/`. -/
def fileName (path : String) : String :=
  String.mk ((splitPath path.data).getLastD [])

/-- Modelled from the spec: `AddOn::getZipPath` (AddOn.cpp is not among the sources), the
expected path of the archive: the download filename in the add-on directory. -/
def getZipPath (env : Env) (addon : AddOn) : String := env.addonDir ++ addon.downloadFilename

/-! ## Archives and checksums -/

/-- Modelled from the spec: `Stel::QZipReader` (qzipreader.h is not among the sources).
The entries when the archive opens (`status() == NoError`), `none` when it does not: there
is no file at the path or the file is no zip archive. -/
def openZip (fs : FileSys) (path : String) : Option (List FileInfo) :=
  match fs.read path with
  | some (Content.zip entries) => some entries
  | _ => none

/-- `QZipReader::fileInfoList`: no entry when the archive did not open. -/
def fileInfoList (reader : Option (List FileInfo)) : List FileInfo := reader.getD []

/-- `StelAddOnMgr::calculateMd5` (lines 421-431): the empty string when the file does not
open. -/
def calculateMd5 (env : Env) (fs : FileSys) (path : String) : String :=
  match fs.read path with
  | some c => env.md5 c
  | none => ""

/-! ## Catalog documents -/

/-- `QJsonObject::insert` on the `add-ons` object. -/
def jsonInsert :
    List (String × Attributes) → String → Attributes → List (String × Attributes)
  | [], key, v => [(key, v)]
  | (k, w) :: t, key, v => if k = key then (k, v) :: t else (k, w) :: jsonInsert t key v

/-- The JSON object of the file at `path`, the empty object when there is none. -/
def readObject (fs : FileSys) (path : String) : JsonDoc :=
  match fs.read path with
  | some c => c.object
  | none => { name := "", format := 0, addons := [] }

/-- `StelAddOnMgr::insertAddonInJson` (lines 497-547). -/
def insertAddonInJson (env : Env) (fs : FileSys) (addon : AddOn) (jsonPath : String) :
    FileSys :=
  if fs.canWrite jsonPath then
    let json := readObject fs jsonPath
    fs.write jsonPath (Content.data (Data.catalog
      { name := "Add-ons Catalog"
        format := env.ADDON_CATALOG_VERSION
        addons := jsonInsert json.addons addon.addOnId addon.attributes }))
  else fs

/-- `StelAddOnMgr::removeAddonFromJson` (lines 549-568). -/
def removeAddonFromJson (fs : FileSys) (addon : AddOn) (jsonPath : String) : FileSys :=
  if fs.canWrite jsonPath then
    let json := readObject fs jsonPath
    fs.write jsonPath (Content.data (Data.catalog
      { json with addons := json.addons.filter (fun e => decide (e.1 ≠ addon.addOnId)) }))
  else fs

/-- `StelAddOnMgr::refreshType` (lines 570-584). -/
def refreshType (st : Mgr) (type : AddOnType) : Mgr :=
  if type = AddOnType.LANDSCAPE then st.emit Signal.landscapesChanged
  else if type = AddOnType.SCRIPT then st.emit Signal.scriptsChanged
  else if type = AddOnType.SKY_CULTURE then st.emit Signal.skyCulturesChanged
  else st

/-! ## Extraction -/

/-- The list `validDirs` of `unzip` (lines 452-454). -/
def validDirs : List String :=
  ["addon/", "landscapes/", "modules/", "scripts/", "skycultures/", "stars/", "textures/",
    "translations/"]

/-- `QStringList::removeDuplicates`: the first occurrence of every string is kept. -/
def removeDuplicates (l : List String) : List String :=
  l.foldl (fun acc x => if x ∈ acc then acc else acc ++ [x]) []

/-- What the `foreach` loop of `unzip` leaves: whether it left `unzip` by `return`, the
disk, the add-on and the local list `installedFiles`. -/
structure UnzipResult where
  returned : Bool
  fs : FileSys
  addon : AddOn
  installedFiles : List String
  deriving DecidableEq, Repr

/-- The test of line 447: the entry is no file or its path contains `info.json`. -/
def skipsEntry (info : FileInfo) : Bool := !info.isFile || contains info.filePath "info.json"

/-- The flag `validDir` of lines 455-463: the path of the entry starts with one of
`validDirs`. -/
def validDir (info : FileInfo) : Bool := validDirs.any (fun dir => startsWith info.filePath dir)

/-- The path `fileInfo.absoluteFilePath()` of lines 473-475, where the entry is written.
-/
def destination (env : Env) (info : FileInfo) : String :=
  absoluteFilePath (env.userDir ++ "/" ++ info.filePath)

/-- The `foreach` loop of `unzip` (lines 445-491) over the entries still to visit.
`makeSureDirExistsAndIsWritable` has no counterpart, the disk has no directories. -/
def unzipLoop (env : Env) : List FileInfo → FileSys → AddOn → List String → UnzipResult
  | [], fs, addon, installedFiles =>
    { returned := false, fs := fs, addon := addon, installedFiles := installedFiles }
  | info :: rest, fs, addon, installedFiles =>
    if skipsEntry info then unzipLoop env rest fs addon installedFiles
    else if !validDir info then
      { returned := true, fs := fs, addon := addon.setStatus Status.InvalidDestination,
        installedFiles := installedFiles }
    else if !(fs.remove (destination env info)).2.canWrite (destination env info) then
      unzipLoop env rest (fs.remove (destination env info)).2
        (addon.setStatus Status.UnableToWrite) installedFiles
    else
      unzipLoop env rest
        ((fs.remove (destination env info)).2.write (destination env info)
          (Content.data info.data))
        addon (installedFiles ++ [destination env info])

/-- `StelAddOnMgr::unzip` (lines 433-495). -/
def unzip (env : Env) (st : Mgr) (addon : AddOn) : Mgr × AddOn :=
  let reader := openZip st.fs (getZipPath env addon)
  let addon1 := if reader.isNone then addon.setStatus Status.UnableToRead else addon
  let installedFiles := addon1.installedFiles
  let addon2 := addon1.setStatus Status.FullyInstalled
  let r := unzipLoop env (fileInfoList reader) st.fs addon2 installedFiles
  if r.returned then ({ st with fs := r.fs }, r.addon)
  else
    let addon3 := r.addon.setInstalledFiles (removeDuplicates r.installedFiles)
    ({ st with fs := insertAddonInJson env r.fs addon3 env.m_sInstalledAddonsJsonPath }, addon3)

/-! ## Installation and removal -/

/-- Modelled from the spec: `DownloadMgr::isDownloading` (DownloadMgr.hpp is not among the
sources): whether a download for this id is in flight. -/
def isDownloading (st : Mgr) (addon : AddOn) : Bool := decide (addon.addOnId ∈ st.downloading)

/-- Modelled from the spec: `DownloadMgr::download` (DownloadMgr.hpp is not among the
sources): the download runs out of band, the id is in flight from now on. -/
def download (st : Mgr) (addon : AddOn) : Mgr :=
  { st with downloading := st.downloading ++ [addon.addOnId] }

/-- Lines 280-286 of `installAddOn`: the files are installed, the catalogs reloaded and
the archive removed. -/
def extractAndReload (env : Env) (st : Mgr) (addon : AddOn) : Mgr × AddOn :=
  let r := unzip env st (addon.setStatus Status.Installing)
  let st1 := refreshType (reloadCatalogues env r.1) r.2.type
  ({ st1 with fs := (st1.fs.remove (getZipPath env r.2)).2 }, r.2)

/-- Lines 257-287 of `installAddOn`: the archive is looked up, checked and extracted. -/
def installFromDisk (env : Env) (st : Mgr) (addon : AddOn) : Mgr × AddOn :=
  if !st.fs.fileExists (getZipPath env addon) then (st, addon.setStatus Status.NotInstalled)
  else if !endsWith (getZipPath env addon) ".zip" then
    (st, addon.setStatus Status.InvalidFormat)
  else if addon.type ≠ AddOnType.ADDON_CATALOG ∧
      addon.checksum ≠ calculateMd5 env st.fs (getZipPath env addon) then
    (st, addon.setStatus Status.Corrupted)
  else extractAndReload env st addon

/-- Lines 289-304 of `installAddOn`: a restart is required, or the download is tried, on
the manager and the add-on that lines 257-287 leave. -/
def restartOrDownload (r : Mgr × AddOn) (tryDownload : Bool) : Mgr × AddOn :=
  if (r.2.status = Status.PartiallyInstalled ∨ r.2.status = Status.FullyInstalled) ∧
      requiresRestart r.2.type = true then
    (r.1.emit Signal.restartRequired, r.2.setStatus Status.Restart)
  else if tryDownload = true ∧
      (r.2.status = Status.NotInstalled ∨ r.2.status = Status.Corrupted) then
    (download r.1 (r.2.setStatus Status.Installing), r.2.setStatus Status.Installing)
  else r

/-- `StelAddOnMgr::installAddOn` (lines 243-305). -/
def installAddOn (env : Env) (st : Mgr) (addon : AddOn) (tryDownload : Bool) : Mgr × AddOn :=
  if isDownloading st addon then (st, addon)
  else if !addon.isValid then (st, addon)
  else restartOrDownload (installFromDisk env st addon) tryDownload

/-- What the `foreach` loop of `removeAddOn` leaves: the disk, the add-on and the local
list `installedFiles`. -/
structure RemoveResult where
  fs : FileSys
  addon : AddOn
  installedFiles : List String
  deriving DecidableEq, Repr

/-- The `foreach` loop of `removeAddOn` (lines 316-333) over the paths still to visit. -/
def removeLoop : List String → FileSys → AddOn → List String → RemoveResult
  | [], fs, addon, installedFiles =>
    { fs := fs, addon := addon, installedFiles := installedFiles }
  | filePath :: rest, fs, addon, installedFiles =>
    if !fs.fileExists filePath then
      removeLoop rest fs addon (installedFiles.erase filePath)
    else if (fs.remove filePath).1 then
      removeLoop rest (fs.remove filePath).2 addon (installedFiles.erase filePath)
    else
      removeLoop rest fs (addon.setStatus Status.PartiallyInstalled) installedFiles

/-- Lines 351-362 of `removeAddOn`: what follows the two branches that do not return. -/
def removeFinish (env : Env) (st : Mgr) (addon : AddOn) (installedFiles : List String) :
    Mgr × AddOn :=
  let addon1 := addon.setInstalledFiles installedFiles
  if requiresRestart addon1.type then
    (refreshType (reloadCatalogues env (st.emit Signal.restartRequired)) addon1.type,
      addon1.setStatus Status.Restart)
  else (refreshType (reloadCatalogues env st) addon1.type, addon1)

/-- `StelAddOnMgr::removeAddOn` (lines 307-363). -/
def removeAddOn (env : Env) (st : Mgr) (addon : AddOn) : Mgr × AddOn :=
  if !addon.isValid then (st, addon)
  else
    let addon1 := addon.setStatus Status.NotInstalled
    let r := removeLoop addon1.installedFiles st.fs addon1 addon1.installedFiles
    if r.addon.status = Status.NotInstalled then
      removeFinish env
        { st with fs := removeAddonFromJson r.fs r.addon env.m_sInstalledAddonsJsonPath }
        r.addon r.installedFiles
    else if r.addon.status = Status.PartiallyInstalled then
      removeFinish env { st with fs := r.fs } r.addon r.installedFiles
    else ({ st with fs := r.fs }, r.addon.setStatus Status.UnableToRemove)

/-! ## Installation from a file -/

/-- A fault of the process, which no status reports. -/
inductive Fault
  | indexOutOfRange
  deriving DecidableEq, Repr

/-- The attributes of an add-on none of whose attributes is given. -/
def AddOn.blank : AddOn :=
  { addOnId := "", type := AddOnType.INVALID, status := Status.NotInstalled, checksum := "",
    date := 0, title := "", description := "", version := "", licenseName := "",
    licenseURL := "", downloadURL := "", downloadFilename := "", downloadSize := 0,
    textures := [], installedFiles := [], authors := [] }

/-- The members of `QJsonDocument::fromJson(data).object()` in the order of `keys()`, each
with its value as attributes: none when the data is no JSON object; for a catalog document
the first key is `add-ons`, whose value has none of the attributes. -/
def Data.members : Data → List (String × Attributes)
  | Data.bytes _ => []
  | Data.json members => members
  | Data.catalog _ => [("add-ons", AddOn.blank.attributes)]

/-- The `foreach` loop of `getAddOnFromZip` (lines 375-399) over the entries still to
visit. `json.keys().at(0)` is a fault when the object has no key. -/
def manifestLoop (env : Env) (fs : FileSys) (filePath : String) :
    List FileInfo → Except Fault (Option AddOn)
  | [] => Except.ok none
  | info :: rest =>
    if !info.isFile || !endsWith info.filePath "info.json" then
      manifestLoop env fs filePath rest
    else if !info.data.isEmpty then
      match info.data.members with
      | [] => Except.error Fault.indexOutOfRange
      | (addonId, attributes) :: _ =>
        Except.ok (some (AddOn.new addonId
          { attributes with
            checksum := calculateMd5 env fs filePath
            downloadSize := (match fs.read filePath with
              | some c => env.fileSize c / 1024
              | none => 0)
            downloadFilename := fileName filePath }))
    else manifestLoop env fs filePath rest

/-- `StelAddOnMgr::getAddOnFromZip` (lines 365-401). -/
def getAddOnFromZip (env : Env) (fs : FileSys) (filePath : String) :
    Except Fault (Option AddOn) :=
  match openZip fs filePath with
  | none => Except.ok none
  | some entries => manifestLoop env fs filePath entries

/-- `QFile::copy`: fails when there is no source, when the target exists already or
when the target cannot be written. -/
def copyFile (fs : FileSys) (source target : String) : Option FileSys :=
  match fs.read source with
  | none => none
  | some c =>
    if fs.fileExists target || !fs.canWrite target then none
    else some (fs.write target c)

/-- Lines 208-240 of `installAddOnFromFile`, once the archive is in the add-on directory.
-/
def installInspected (env : Env) (st : Mgr) (addon : AddOn) : Mgr :=
  let addonInHash :=
    match QHash.value st.m_addonsAvailable addon.addOnId with
    | some a => some a
    | none => QHash.value st.m_addonsToUpdate addon.addOnId
  match addonInHash with
  | some a =>
    if addon.checksum ≠ a.checksum then st
    else (installAddOn env st a false).1
  | none =>
    let r := installAddOn env st addon false
    if r.2.status = Status.FullyInstalled then
      { r.1 with
        fs := insertAddonInJson env r.1.fs r.2 env.m_sUserAddonJsonPath
        m_addonsInstalled := QHash.insert r.1.m_addonsInstalled r.2.addOnId r.2 }
    else r.1

/-- `StelAddOnMgr::installAddOnFromFile` (lines 190-241). -/
def installAddOnFromFile (env : Env) (st : Mgr) (filePath : String) : Except Fault Mgr :=
  match getAddOnFromZip env st.fs filePath with
  | Except.error f => Except.error f
  | Except.ok none => Except.ok st
  | Except.ok (some addon) =>
    if !addon.isValid then Except.ok st
    else if !startsWith filePath env.addonDir then
      match copyFile st.fs filePath (getZipPath env addon) with
      | none => Except.ok st
      | some fs => Except.ok (installInspected env { st with fs := fs } addon)
    else Except.ok (installInspected env st addon)

/-! ## Concrete states -/

/-- An environment: the user directory `/home/u/.stellarium`, catalog version 1, and a
digest that is `abc` for every archive. -/
def exampleEnv : Env :=
  { userDir := "/home/u/.stellarium"
    addonDir := "/home/u/.stellarium/addon/"
    m_sAddonJsonPath := "/home/u/.stellarium/addon/0.15/addons.json"
    m_sInstalledAddonsJsonPath := "/home/u/.stellarium/addon/installed_addons.json"
    m_sUserAddonJsonPath := "/home/u/.stellarium/addon/user_addons.json"
    ADDON_CATALOG_VERSION := 1
    md5 := fun c =>
      match c with
      | Content.zip _ => "abc"
      | Content.data _ => "000"
    fileSize := fun _ => 2048 }

/-- A catalog document of the supported version with the given add-ons. -/
def catalogFile (addons : List (String × AddOn)) : Content :=
  Content.data (Data.catalog
    { name := "Add-ons Catalog", format := 1,
      addons := addons.map (fun e => (e.1, e.2.attributes)) })

/-- A manager with empty hashes on the given disk. -/
def managerOn (fs : FileSys) : Mgr :=
  { m_addonsInstalled := [], m_addonsAvailable := [], m_addonsToUpdate := [], fs := fs,
    downloading := [], signals := [] }

/-- The installed `comet_x` of the scenario: date 2021.01.01, checksum `def`. -/
def cometInstalled : AddOn :=
  { AddOn.blank with
    addOnId := "comet_x", type := AddOnType.SCRIPT, checksum := "def", date := 2459216 }

/-- The official `comet_x` of the scenario: date 2020.01.01, checksum `abc`. -/
def cometOfficial : AddOn :=
  { AddOn.blank with
    addOnId := "comet_x", type := AddOnType.SCRIPT, checksum := "abc", date := 2458850 }

/-- The scenario of the installed `comet_x` that is newer than the official one. -/
def cometState : Mgr :=
  managerOn
    { files :=
        [(exampleEnv.m_sInstalledAddonsJsonPath, catalogFile [("comet_x", cometInstalled)]),
         (exampleEnv.m_sAddonJsonPath, catalogFile [("comet_x", cometOfficial)])]
      unwritable := []
      undeletable := [] }

/-- An add-on `x` with the given date and checksum. -/
def addonX (date : Int) (checksum : String) : AddOn :=
  { AddOn.blank with
    addOnId := "x", type := AddOnType.LANDSCAPE, checksum := checksum, date := date }

/-- A disk on which `x` is installed as `i` and offered by the official catalog as `s`. -/
def stateX (i s : AddOn) : Mgr :=
  managerOn
    { files :=
        [(exampleEnv.m_sInstalledAddonsJsonPath, catalogFile [("x", i)]),
         (exampleEnv.m_sAddonJsonPath, catalogFile [("x", s)])]
      unwritable := []
      undeletable := [] }

/-- An add-on `moon` of the given type with checksum `abc`, whose archive is
`moon.zip`. -/
def moon (type : AddOnType) : AddOn :=
  { AddOn.blank with
    addOnId := "moon", type := type, checksum := "abc", downloadFilename := "moon.zip" }

/-- The path of the archive of `moon`. -/
def moonZip : String := "/home/u/.stellarium/addon/moon.zip"

/-- A manifest entry for `moon` as a landscape. -/
def moonManifest : FileInfo :=
  { filePath := "moon/info.json", isFile := true,
    data := Data.json [("moon", (moon AddOnType.LANDSCAPE).attributes)] }

/-- A file entry with the given path. -/
def fileEntry (filePath : String) : FileInfo :=
  { filePath := filePath, isFile := true, data := Data.bytes "data" }

/-- A manager with empty hashes on a disk whose only file is the archive of `moon` with
the given entries. -/
def moonState (entries : List FileInfo) : Mgr :=
  managerOn { files := [(moonZip, Content.zip entries)], unwritable := [], undeletable := [] }

/-- A manager with empty hashes on a disk whose only file is at the path of the archive
of `moon` and is no zip archive. -/
def brokenMoonState : Mgr :=
  managerOn
    { files := [(moonZip, Content.data (Data.bytes "no zip"))], unwritable := [],
      undeletable := [] }

/-- The entries of an archive of `moon`: the manifest, a texture and a landscape file. -/
def moonEntries : List FileInfo :=
  [moonManifest, fileEntry "textures/moon.png", fileEntry "landscapes/moon/a.png"]

/-- The manager that `installAddOnFromFile` leaves for the archive of `moon`. -/
def moonInstalledState : Mgr :=
  match installAddOnFromFile exampleEnv (moonState moonEntries) moonZip with
  | Except.ok st => st
  | Except.error _ => moonState moonEntries

/-- Whether the path, with `.` and `..` resolved, is inside one of the eight category
directories of the user directory. -/
def insideCategoryDir (env : Env) (path : String) : Bool :=
  validDirs.any (fun dir =>
    startsWith (cleanPath path) (cleanPath (env.userDir ++ "/" ++ dir) ++ "/"))

/-- The add-on `moon` of the given type with two recorded installed files, none of which
is on the disk of `moonState []`. -/
def moonWithFiles (type : AddOnType) : AddOn :=
  { moon type with
    installedFiles :=
      ["/home/u/.stellarium/textures/moon.png", "/home/u/.stellarium/landscapes/moon/a.png"] }

/-! ## The partitions -/

/-- The three hashes of a manager. -/
def Mgr.hashes (st : Mgr) : QHash × QHash × QHash :=
  (st.m_addonsInstalled, st.m_addonsAvailable, st.m_addonsToUpdate)

/-- The relation of the three hashes that `reloadCatalogues` establishes: a key of
`m_addonsAvailable` is a key of neither `m_addonsInstalled` nor `m_addonsToUpdate`, and a
key of `m_addonsToUpdate` is a key of `m_addonsInstalled`. -/
def Partitioned (st : Mgr) : Prop :=
  ∀ id : String,
    (id ∈ QHash.keys st.m_addonsAvailable →
      id ∉ QHash.keys st.m_addonsInstalled ∧ id ∉ QHash.keys st.m_addonsToUpdate) ∧
    (id ∈ QHash.keys st.m_addonsToUpdate → id ∈ QHash.keys st.m_addonsInstalled)

/-- The condition under which `installAddOn` reaches the extraction of lines 278-287:
the archive exists, its path ends in `.zip`, and the type is add-on-catalog or the checksum
is the digest of the archive. -/
def reachesExtraction (env : Env) (st : Mgr) (addon : AddOn) : Bool :=
  st.fs.fileExists (getZipPath env addon) && endsWith (getZipPath env addon) ".zip" &&
    (decide (addon.type = AddOnType.ADDON_CATALOG) ||
      decide (addon.checksum = calculateMd5 env st.fs (getZipPath env addon)))

/-- The loop of `unzip` as `unzip` runs it: over the entries of the archive of the add-on,
from status `FullyInstalled` and the installed files of the add-on. -/
def unzipEntries (env : Env) (st : Mgr) (addon : AddOn) : UnzipResult :=
  unzipLoop env (fileInfoList (openZip st.fs (getZipPath env addon))) st.fs
    (addon.setStatus Status.FullyInstalled) addon.installedFiles

/-- The paths at which the loop of `unzip` writes the entries that it does not skip. -/
def writtenPaths (env : Env) (entries : List FileInfo) : List String :=
  (entries.filter (fun e => !skipsEntry e)).map (destination env)

/-- The manager after the archive with the given entries has been put at the path of the
archive of the add-on. -/
def restoreArchive (env : Env) (st : Mgr) (addon : AddOn) (entries : List FileInfo) : Mgr :=
  { st with fs := st.fs.write (getZipPath env addon) (Content.zip entries) }

/-- The first installation of the landscape `moon` from its archive. -/
def moonFirst : Mgr × AddOn :=
  installAddOn exampleEnv (moonState moonEntries) (moon AddOnType.LANDSCAPE) false

/-- The second installation of `moon`, right after the first. -/
def moonSecond : Mgr × AddOn := installAddOn exampleEnv moonFirst.1 moonFirst.2 false

/-- The second installation of `moon`, after the archive has been put back. -/
def moonSecondRestored : Mgr × AddOn :=
  installAddOn exampleEnv
    (restoreArchive exampleEnv moonFirst.1 (moon AddOnType.LANDSCAPE) moonEntries)
    moonFirst.2 false

/-- A manifest entry for `moon` as a texture. -/
def moonTextureManifest : FileInfo :=
  { filePath := "moon/info.json", isFile := true,
    data := Data.json [("moon", (moon AddOnType.TEXTURE).attributes)] }

/-- The entries of an archive of `moon` as a texture: the manifest and a texture. -/
def moonTextureEntries : List FileInfo := [moonTextureManifest, fileEntry "textures/moon.png"]

/-- The manager that `installAddOnFromFile` leaves for the archive of `moon` as a
texture. -/
def moonTextureInstalledState : Mgr :=
  match installAddOnFromFile exampleEnv (moonState moonTextureEntries) moonZip with
  | Except.ok st => st
  | Except.error _ => moonState moonTextureEntries

/-- The add-on that `getAddOnFromZip` reads from an archive `moon.zip` with the entries
`moonEntries`. -/
def moonFromZip : AddOn :=
  { moon AddOnType.LANDSCAPE with downloadSize := 2 }

/-- A manager whose `m_addonsAvailable` has `moon` with checksum `zzz`, on a disk whose
only file is the archive `/tmp/moon.zip` of `moon`, with digest `abc`. -/
def conflictState : Mgr :=
  { managerOn
      { files := [("/tmp/moon.zip", Content.zip moonEntries)], unwritable := [],
        undeletable := [] } with
    m_addonsAvailable := [("moon", { moon AddOnType.LANDSCAPE with checksum := "zzz" })] }

/-- The test of line 318 fails for the path: the file exists and `QFile::remove` does not
remove it. -/
def deletionFails (fs : FileSys) (path : String) : Bool :=
  fs.fileExists path && !(fs.remove path).1

/-- A disk with a texture that cannot be deleted and a landscape file that can. -/
def lockedDisk : FileSys :=
  { files :=
      [("/home/u/.stellarium/textures/moon.png", Content.data (Data.bytes "data")),
       ("/home/u/.stellarium/landscapes/moon/a.png", Content.data (Data.bytes "data"))]
    unwritable := []
    undeletable := ["/home/u/.stellarium/textures/moon.png"] }

/-- An add-on `y` that is not installed. -/
def addonY : AddOn :=
  { AddOn.blank with addOnId := "y", type := AddOnType.SCRIPT, checksum := "ghi", date := 3 }

/-- A disk on which `x` is installed with date 1 and checksum `abc`, and the official
catalog offers `x` with date 2 and checksum `def` and `y`. -/
def stateXY : Mgr :=
  managerOn
    { files :=
        [(exampleEnv.m_sInstalledAddonsJsonPath, catalogFile [("x", addonX 1 "abc")]),
         (exampleEnv.m_sAddonJsonPath, catalogFile [("x", addonX 2 "def"), ("y", addonY)])]
      unwritable := []
      undeletable := [] }

/-- The paths at which the loop of `unzip` writes a file (line 486), in the order of
writing. -/
def loopWrites (env : Env) : List FileInfo → FileSys → List String
  | [], _ => []
  | info :: rest, fs =>
    if skipsEntry info then loopWrites env rest fs
    else if !validDir info then []
    else if !(fs.remove (destination env info)).2.canWrite (destination env info) then
      loopWrites env rest (fs.remove (destination env info)).2
    else
      destination env info ::
        loopWrites env rest
          ((fs.remove (destination env info)).2.write (destination env info)
            (Content.data info.data))

/-- The disk of `moonState` on which the given paths cannot be opened for writing. -/
def moonStateUnwritable (entries : List FileInfo) (unwritable : List String) : Mgr :=
  managerOn
    { files := [(moonZip, Content.zip entries)], unwritable := unwritable, undeletable := [] }

/-- A texture `moon` with the two texture files `a` and `b`. -/
def moonTwoTextures : AddOn := { moon AddOnType.TEXTURE with textures := ["a", "b"] }

/-- An add-on as the manager holds it: built by the constructor from an attribute object,
with the status and the installed files that `setStatus` and `setInstalledFiles` have set
since. -/
def AddOn.built (addOnId : String) (attributes : Attributes) (status : Status)
    (files : List String) : AddOn :=
  ((AddOn.new addOnId attributes).setStatus status).setInstalledFiles files

/-- The texture `moon` as the constructor builds it from the attributes of
`moonTwoTextures`, fully installed with one file. -/
def moonBuilt : AddOn :=
  AddOn.built "moon" moonTwoTextures.attributes Status.FullyInstalled
    ["/home/u/.stellarium/textures/a"]

/-- A disk whose user catalog document is a catalog with the add-on `x`. -/
def userCatalogDisk : FileSys :=
  { files := [(exampleEnv.m_sUserAddonJsonPath, catalogFile [("x", addonX 1 "abc")])]
    unwritable := []
    undeletable := [] }

/-- An empty disk. -/
def emptyDisk : FileSys := { files := [], unwritable := [], undeletable := [] }

/-- An empty disk on which the user catalog document cannot be opened for writing. -/
def readOnlyDisk : FileSys :=
  { files := [], unwritable := [exampleEnv.m_sUserAddonJsonPath], undeletable := [] }

/-- A manifest entry whose data is the JSON object `{}`. -/
def emptyManifest : FileInfo :=
  { filePath := "moon/info.json", isFile := true, data := Data.json [] }

/-- A manifest entry whose data is no JSON object. -/
def brokenManifest : FileInfo :=
  { filePath := "moon/info.json", isFile := true, data := Data.bytes "no json" }

/-- The entries of an archive of `moon` with two more files whose paths contain
`info.json`. -/
def moonEntriesWithLookalikes : List FileInfo :=
  [moonManifest, fileEntry "textures/info.json.png", fileEntry "evil/info.json.txt",
    fileEntry "textures/moon.png"]

/-! ## Lemmas on `QHash` -/

namespace QHash

theorem value_eq_none_iff (h : QHash) (key : String) :
    value h key = none ↔ key ∉ keys h := by
  induction h with
  | nil => simp [value, keys]
  | cons e t ih =>
    obtain ⟨k, v⟩ := e
    by_cases hk : k = key
    · simp [value, keys, hk]
    · have hk2 : ¬ key = k := fun h => hk h.symm
      simpa [value, keys, hk, hk2] using ih

theorem mem_keys_iff (h : QHash) (key : String) :
    key ∈ keys h ↔ ∃ v, value h key = some v := by
  have := value_eq_none_iff h key
  cases hv : value h key with
  | none => simp [hv] at this; simp [this]
  | some v => simp [hv] at this; simp [this]

theorem value_remove (h : QHash) (k key : String) :
    value (remove h k) key = if k = key then none else value h key := by
  induction h with
  | nil => simp [value, remove]
  | cons e t ih =>
    obtain ⟨k1, v1⟩ := e
    have ih2 : value (List.filter (fun e => decide (e.1 ≠ k)) t) key =
        if k = key then none else value t key := ih
    by_cases h1 : k1 = k
    · subst h1
      by_cases h2 : k1 = key
      · simp only [remove, List.filter, ne_eq, not_true_eq_false, decide_False, h2, if_true]
        simpa [h2] using ih2
      · simp only [remove, List.filter, ne_eq, not_true_eq_false, decide_False, h2, if_false,
          value]
        simpa [h2] using ih2
    · by_cases h2 : k1 = key
      · subst h2
        have h3 : ¬ k = k1 := fun h => h1 h.symm
        simp [remove, List.filter, value, h1, h3]
      · simp only [remove, List.filter, ne_eq, h1, not_false_eq_true, decide_True, value, h2,
          if_false]
        exact ih2

theorem value_insert (h : QHash) (k key : String) (v : AddOn) :
    value (insert h k v) key = if k = key then some v else value h key := by
  induction h with
  | nil => simp [value, insert]
  | cons e t ih =>
    obtain ⟨k1, v1⟩ := e
    by_cases h1 : k1 = k
    · subst h1
      by_cases h2 : k1 = key <;> simp [insert, value, h2]
    · by_cases h2 : k1 = key
      · subst h2
        have h3 : ¬ k = k1 := fun h => h1 h.symm
        simp [insert, value, h1, h3]
      · simp [insert, value, h1, h2, ih]

theorem mem_keys_insert (h : QHash) (k key : String) (v : AddOn) :
    key ∈ keys (insert h k v) ↔ key = k ∨ key ∈ keys h := by
  rw [mem_keys_iff, mem_keys_iff, value_insert]
  by_cases hk : k = key
  · simp [hk]
  · have hk2 : ¬ key = k := fun h => hk h.symm
    simp [hk, hk2]

theorem unite_eq_append (h other : QHash) : unite h other = other ++ h := by
  induction other with
  | nil => rfl
  | cons e t ih =>
    simp only [unite, List.foldr, insertMulti] at ih ⊢
    rw [ih]
    rfl

end QHash

/-! ## The loop of `reloadCatalogues` -/

theorem reloadStep_absent (av tu : QHash) (k : String) (i : AddOn)
    (hv : QHash.value av k = none) : reloadStep (av, tu) (k, i) = (av, tu) := by
  simp [reloadStep, hv]

theorem reloadStep_drop (av tu : QHash) (k : String) (i s : AddOn)
    (hv : QHash.value av k = some s)
    (hc : i.checksum = s.checksum ∨ i.date ≥ s.date) :
    reloadStep (av, tu) (k, i) = (QHash.remove av k, tu) := by
  simp only [reloadStep, hv]
  rw [if_pos hc]

theorem reloadStep_update (av tu : QHash) (k : String) (i s : AddOn)
    (hv : QHash.value av k = some s)
    (hc : ¬ (i.checksum = s.checksum ∨ i.date ≥ s.date)) :
    reloadStep (av, tu) (k, i) = (QHash.remove av k, QHash.insert tu k s) := by
  have hlt : i.date < s.date := by
    have := not_or.mp hc
    omega
  simp only [reloadStep, hv]
  rw [if_neg hc, if_pos hlt]

/-- The step leaves the other keys of both hashes as they are, and the key of the
installed add-on is not in `m_addonsAvailable` after it. -/
theorem reloadStep_values (av tu : QHash) (k : String) (i : AddOn) :
    (∀ id, k ≠ id → QHash.value (reloadStep (av, tu) (k, i)).1 id = QHash.value av id ∧
      QHash.value (reloadStep (av, tu) (k, i)).2 id = QHash.value tu id) ∧
    QHash.value (reloadStep (av, tu) (k, i)).1 k = none := by
  cases hv : QHash.value av k with
  | none =>
    rw [reloadStep_absent av tu k i hv]
    exact ⟨fun id _ => ⟨rfl, rfl⟩, hv⟩
  | some s =>
    by_cases hc : i.checksum = s.checksum ∨ i.date ≥ s.date
    · rw [reloadStep_drop av tu k i s hv hc]
      refine ⟨fun id hk => ⟨?_, rfl⟩, ?_⟩
      · simp [QHash.value_remove, hk]
      · simp [QHash.value_remove]
    · rw [reloadStep_update av tu k i s hv hc]
      refine ⟨fun id hk => ⟨?_, ?_⟩, ?_⟩
      · simp [QHash.value_remove, hk]
      · simp [QHash.value_insert, hk]
      · simp [QHash.value_remove]

/-- After the loop an id of `installed` is not in `m_addonsAvailable`, every other id is
there as before. -/
theorem reloadLoop_available (installed : QHash) (av tu : QHash) (id : String) :
    QHash.value (installed.foldl reloadStep (av, tu)).1 id =
      if (QHash.value installed id).isSome then none else QHash.value av id := by
  induction installed generalizing av tu with
  | nil => simp [QHash.value]
  | cons e t ih =>
    obtain ⟨k, i⟩ := e
    have hs := reloadStep_values av tu k i
    rw [List.foldl_cons]
    rw [show reloadStep (av, tu) (k, i) =
      ((reloadStep (av, tu) (k, i)).1, (reloadStep (av, tu) (k, i)).2) from rfl, ih]
    by_cases hk : k = id
    · subst hk
      simp [hs.2, QHash.value]
    · simp [(hs.1 id hk).1, QHash.value, hk]

/-- After the loop `m_addonsToUpdate` holds, for an id of `installed` and of
`m_addonsAvailable`, the available add-on when neither the checksums are equal nor the
installed date is greater or equal; every other id is there as before. -/
theorem reloadLoop_toUpdate (installed : QHash) (av tu : QHash) (id : String) :
    QHash.value (installed.foldl reloadStep (av, tu)).2 id =
      match QHash.value installed id, QHash.value av id with
      | some i, some s =>
        if i.checksum = s.checksum ∨ i.date ≥ s.date then QHash.value tu id else some s
      | _, _ => QHash.value tu id := by
  induction installed generalizing av tu with
  | nil => simp [QHash.value]
  | cons e t ih =>
    obtain ⟨k, i⟩ := e
    have hs := reloadStep_values av tu k i
    rw [List.foldl_cons]
    rw [show reloadStep (av, tu) (k, i) =
      ((reloadStep (av, tu) (k, i)).1, (reloadStep (av, tu) (k, i)).2) from rfl, ih]
    by_cases hk : k = id
    · subst hk
      rw [hs.2]
      have hm : ∀ (o : Option AddOn) (x : Option AddOn),
          (match o, (none : Option AddOn) with
            | some i, some s => if i.checksum = s.checksum ∨ i.date ≥ s.date then x else some s
            | _, _ => x) = x := by
        intro o x
        cases o <;> rfl
      rw [hm]
      simp only [QHash.value, if_true]
      cases hv : QHash.value av k with
      | none => rw [reloadStep_absent av tu k i hv]
      | some s =>
        by_cases hc : i.checksum = s.checksum ∨ i.date ≥ s.date
        · rw [reloadStep_drop av tu k i s hv hc]
          simp only [hc, if_true]
        · rw [reloadStep_update av tu k i s hv hc]
          simp only [hc, if_false]
          simp [QHash.value_insert]
    · rw [(hs.1 id hk).1, (hs.1 id hk).2]
      simp [QHash.value, hk]

/-! ## `reloadCatalogues` -/

theorem reloadCatalogues_installed (env : Env) (st : Mgr) :
    (reloadCatalogues env st).m_addonsInstalled =
      loadAddonCatalog env st.fs env.m_sInstalledAddonsJsonPath := rfl

/-- An id of the installed catalog is not in `m_addonsAvailable` after `reloadCatalogues`,
every other id has the add-on of the merged catalog. -/
theorem reloadCatalogues_available (env : Env) (st : Mgr) (id : String) :
    QHash.value (reloadCatalogues env st).m_addonsAvailable id =
      if (QHash.value (reloadCatalogues env st).m_addonsInstalled id).isSome then none
      else QHash.value (mergedCatalog env st.fs) id :=
  reloadLoop_available _ _ _ id

/-- The add-on of an id in `m_addonsToUpdate` after `reloadCatalogues`. -/
theorem reloadCatalogues_toUpdate (env : Env) (st : Mgr) (id : String) :
    QHash.value (reloadCatalogues env st).m_addonsToUpdate id =
      match QHash.value (reloadCatalogues env st).m_addonsInstalled id,
        QHash.value (mergedCatalog env st.fs) id with
      | some i, some s => if i.checksum = s.checksum ∨ i.date ≥ s.date then none else some s
      | _, _ => none := by
  have h := reloadLoop_toUpdate (loadAddonCatalog env st.fs env.m_sInstalledAddonsJsonPath)
    (mergedCatalog env st.fs) [] id
  simpa [QHash.value] using h

/-- C1: after `reloadCatalogues`, an id that is in the installed catalog with add-on `i`
and in the merged source catalog with add-on `s`, where the checksums are equal or the date
of `i` is greater than or equal to the date of `s`, is a key of neither
`m_addonsAvailable` nor `m_addonsToUpdate`. -/
theorem reloadCatalogues_drops_not_newer (env : Env) (st : Mgr) (id : String) (i s : AddOn)
    (hi : QHash.value (reloadCatalogues env st).m_addonsInstalled id = some i)
    (hs : QHash.value (mergedCatalog env st.fs) id = some s)
    (h : i.checksum = s.checksum ∨ i.date ≥ s.date) :
    id ∉ QHash.keys (reloadCatalogues env st).m_addonsAvailable ∧
      id ∉ QHash.keys (reloadCatalogues env st).m_addonsToUpdate := by
  constructor
  · rw [← QHash.value_eq_none_iff, reloadCatalogues_available, hi]
    rfl
  · rw [← QHash.value_eq_none_iff, reloadCatalogues_toUpdate, hi, hs]
    simp only [h, if_true]

/-- The scenario of C1: `comet_x`, installed at 2021.01.01 with checksum `def` and official
at 2020.01.01 with checksum `abc`, is in neither hash. -/
theorem reloadCatalogues_drops_not_newer_witness :
    "comet_x" ∉ QHash.keys (reloadCatalogues exampleEnv cometState).m_addonsAvailable ∧
      "comet_x" ∉ QHash.keys (reloadCatalogues exampleEnv cometState).m_addonsToUpdate :=
  reloadCatalogues_drops_not_newer exampleEnv cometState "comet_x" cometInstalled
    cometOfficial (by decide) (by decide) (by decide)

/-- C2 as it is stated fails: `x` is installed with date 1 and offered with date 2, both
with checksum `abc`; after `reloadCatalogues` it is not in `m_addonsToUpdate`. -/
theorem reloadCatalogues_equal_checksum_counterexample :
    QHash.value (reloadCatalogues exampleEnv
        (stateX (addonX 1 "abc") (addonX 2 "abc"))).m_addonsInstalled "x" =
        some (addonX 1 "abc") ∧
      QHash.value (mergedCatalog exampleEnv (stateX (addonX 1 "abc") (addonX 2 "abc")).fs) "x" =
        some (addonX 2 "abc") ∧
      (addonX 1 "abc").date < (addonX 2 "abc").date ∧
      QHash.value (reloadCatalogues exampleEnv
        (stateX (addonX 1 "abc") (addonX 2 "abc"))).m_addonsToUpdate "x" = none := by
  decide

/-- C2, amended: after `reloadCatalogues`, for an id that is in the installed catalog with
add-on `i` and in the merged source catalog with add-on `s`, if the date of `i` is less than
the date of `s` and the checksums differ, then `s` is in `m_addonsToUpdate` under the id and
the id is not a key of `m_addonsAvailable`. -/
theorem reloadCatalogues_update_pending (env : Env) (st : Mgr) (id : String) (i s : AddOn)
    (hi : QHash.value (reloadCatalogues env st).m_addonsInstalled id = some i)
    (hs : QHash.value (mergedCatalog env st.fs) id = some s)
    (hdate : i.date < s.date) (hsum : i.checksum ≠ s.checksum) :
    QHash.value (reloadCatalogues env st).m_addonsToUpdate id = some s ∧
      id ∉ QHash.keys (reloadCatalogues env st).m_addonsAvailable := by
  have hc : ¬ (i.checksum = s.checksum ∨ i.date ≥ s.date) := by
    intro h
    rcases h with h | h
    · exact hsum h
    · omega
  constructor
  · rw [reloadCatalogues_toUpdate, hi, hs]
    simp only [hc, if_false]
  · rw [← QHash.value_eq_none_iff, reloadCatalogues_available, hi]
    rfl

/-- An instance of the amended C2: `x` installed with date 1 and checksum `abc`, offered
with date 2 and checksum `def`. -/
theorem reloadCatalogues_update_pending_witness :
    QHash.value (reloadCatalogues exampleEnv
        (stateX (addonX 1 "abc") (addonX 2 "def"))).m_addonsToUpdate "x" =
        some (addonX 2 "def") ∧
      "x" ∉ QHash.keys (reloadCatalogues exampleEnv
        (stateX (addonX 1 "abc") (addonX 2 "def"))).m_addonsAvailable :=
  reloadCatalogues_update_pending exampleEnv (stateX (addonX 1 "abc") (addonX 2 "def")) "x"
    (addonX 1 "abc") (addonX 2 "def") (by decide) (by decide) (by decide) (by decide)

/-- C3 as it is stated fails: `x` is installed with date 1 and checksum `abc` and offered
with date 2 and checksum `def`; after `reloadCatalogues` it is a key of `m_addonsInstalled`
and of `m_addonsToUpdate`. -/
theorem reloadCatalogues_overlap_counterexample :
    "x" ∈ QHash.keys (reloadCatalogues exampleEnv
        (stateX (addonX 1 "abc") (addonX 2 "def"))).m_addonsInstalled ∧
      "x" ∈ QHash.keys (reloadCatalogues exampleEnv
        (stateX (addonX 1 "abc") (addonX 2 "def"))).m_addonsToUpdate := by
  decide

theorem reloadCatalogues_partitioned (env : Env) (st : Mgr) :
    Partitioned (reloadCatalogues env st) := by
  intro id
  have hav := reloadCatalogues_available env st id
  have htu := reloadCatalogues_toUpdate env st id
  cases hi : QHash.value (reloadCatalogues env st).m_addonsInstalled id with
  | none =>
    rw [hi] at htu
    have hnotin := (QHash.value_eq_none_iff _ id).mp hi
    have hnottu := (QHash.value_eq_none_iff _ id).mp htu
    exact ⟨fun _ => ⟨hnotin, hnottu⟩, fun h => absurd h hnottu⟩
  | some i =>
    rw [hi] at hav
    have hnotav := (QHash.value_eq_none_iff _ id).mp hav
    have hin : id ∈ QHash.keys (reloadCatalogues env st).m_addonsInstalled :=
      (QHash.mem_keys_iff _ id).mpr ⟨i, hi⟩
    exact ⟨fun h => absurd h hnotav, fun _ => hin⟩

theorem partitioned_of_hashes (st st' : Mgr) (h : st'.hashes = st.hashes)
    (hp : Partitioned st) : Partitioned st' := by
  simp only [Mgr.hashes, Prod.mk.injEq] at h
  obtain ⟨h1, h2, h3⟩ := h
  intro id
  have := hp id
  rw [← h1, ← h2, ← h3] at this
  exact this

/-! ## `unzip` -/

/-- The loop of `unzip` changes nothing of the add-on but its status. -/
theorem unzipLoop_addon (env : Env) (es : List FileInfo) (fs : FileSys) (a : AddOn)
    (files : List String) :
    (unzipLoop env es fs a files).addon =
      a.setStatus (unzipLoop env es fs a files).addon.status := by
  induction es generalizing fs a files with
  | nil => rfl
  | cons info rest ih =>
    unfold unzipLoop
    split_ifs
    · exact ih fs a files
    · rfl
    · rw [ih]
      rfl
    · exact ih _ a _

/-- The loop of `unzip` ends by `return` with status `InvalidDestination`, or at the end
of the entries with the status it started with or `UnableToWrite`. -/
theorem unzipLoop_status (env : Env) (es : List FileInfo) (fs : FileSys) (a : AddOn)
    (files : List String) :
    ((unzipLoop env es fs a files).returned = true ∧
        (unzipLoop env es fs a files).addon.status = Status.InvalidDestination) ∨
      ((unzipLoop env es fs a files).returned = false ∧
        ((unzipLoop env es fs a files).addon.status = a.status ∨
          (unzipLoop env es fs a files).addon.status = Status.UnableToWrite)) := by
  induction es generalizing fs a files with
  | nil => exact Or.inr ⟨rfl, Or.inl rfl⟩
  | cons info rest ih =>
    unfold unzipLoop
    split_ifs
    · exact ih fs a files
    · exact Or.inl ⟨rfl, rfl⟩
    · rcases ih ((fs.remove (destination env info)).2)
        (a.setStatus Status.UnableToWrite) files with h | ⟨h1, h2⟩
      · exact Or.inl h
      · refine Or.inr ⟨h1, Or.inr ?_⟩
        rcases h2 with h2 | h2
        · exact h2
        · exact h2
    · exact ih _ a _

theorem FileSys.remove_unwritable (fs : FileSys) (path : String) :
    (fs.remove path).2.unwritable = fs.unwritable := by
  unfold FileSys.remove
  split_ifs <;> rfl

theorem FileSys.write_unwritable (fs : FileSys) (path : String) (c : Content) :
    (fs.write path c).unwritable = fs.unwritable := rfl

theorem FileSys.canWrite_congr (fs fs' : FileSys) (path : String)
    (h : fs'.unwritable = fs.unwritable) : fs'.canWrite path = fs.canWrite path := by
  simp [FileSys.canWrite, h]

/-- The loop of `unzip` does not change which paths can be written. -/
theorem unzipLoop_unwritable (env : Env) (es : List FileInfo) (fs : FileSys) (a : AddOn)
    (files : List String) :
    (unzipLoop env es fs a files).fs.unwritable = fs.unwritable := by
  induction es generalizing fs a files with
  | nil => rfl
  | cons info rest ih =>
    unfold unzipLoop
    split_ifs
    · exact ih fs a files
    · rfl
    · rw [ih, FileSys.remove_unwritable]
    · rw [ih, FileSys.write_unwritable, FileSys.remove_unwritable]

theorem insertAddonInJson_unwritable (env : Env) (fs : FileSys) (a : AddOn) (path : String) :
    (insertAddonInJson env fs a path).unwritable = fs.unwritable := by
  unfold insertAddonInJson
  split_ifs <;> rfl

/-- The status `UnableToRead` of line 440 is overwritten by line 444: `unzip` is the loop
from status `FullyInstalled` whether the archive opened or not. -/
theorem unzip_eq (env : Env) (st : Mgr) (a : AddOn) :
    unzip env st a =
      if (unzipEntries env st a).returned then
        ({ st with fs := (unzipEntries env st a).fs }, (unzipEntries env st a).addon)
      else
        ({ st with
            fs := insertAddonInJson env (unzipEntries env st a).fs
              ((unzipEntries env st a).addon.setInstalledFiles
                (removeDuplicates (unzipEntries env st a).installedFiles))
              env.m_sInstalledAddonsJsonPath },
          (unzipEntries env st a).addon.setInstalledFiles
            (removeDuplicates (unzipEntries env st a).installedFiles)) := by
  unfold unzip unzipEntries
  by_cases h1 : (openZip st.fs (getZipPath env a)).isNone = true
  · simp only [h1, if_true]
    rfl
  · simp only [h1, if_false]
    rfl

theorem unzipEntries_status (env : Env) (st : Mgr) (a : AddOn) :
    ((unzipEntries env st a).returned = true ∧
        (unzipEntries env st a).addon.status = Status.InvalidDestination) ∨
      ((unzipEntries env st a).returned = false ∧
        ((unzipEntries env st a).addon.status = Status.FullyInstalled ∨
          (unzipEntries env st a).addon.status = Status.UnableToWrite)) :=
  unzipLoop_status env _ st.fs (a.setStatus Status.FullyInstalled) a.installedFiles

/-- The status with which `unzip` ends is one of three; `UnableToRead` is not among
them. -/
theorem unzip_status (env : Env) (st : Mgr) (a : AddOn) :
    (unzip env st a).2.status = Status.FullyInstalled ∨
      (unzip env st a).2.status = Status.UnableToWrite ∨
      (unzip env st a).2.status = Status.InvalidDestination := by
  rw [unzip_eq]
  have h := unzipEntries_status env st a
  split_ifs with hr
  · rcases h with ⟨_, h2⟩ | ⟨h1, _⟩
    · exact Or.inr (Or.inr h2)
    · rw [h1] at hr
      exact absurd hr Bool.false_ne_true
  · rcases h with ⟨h1, _⟩ | ⟨_, h2⟩
    · exact absurd h1 hr
    · rcases h2 with h2 | h2
      · exact Or.inl h2
      · exact Or.inr (Or.inl h2)

/-- `unzip` changes nothing of the add-on but its status and its installed files. -/
theorem unzip_addon (env : Env) (st : Mgr) (a : AddOn) :
    (unzip env st a).2 =
      { a with
        status := (unzip env st a).2.status
        installedFiles := (unzip env st a).2.installedFiles } := by
  have hs : (unzipEntries env st a).addon =
      a.setStatus (unzipEntries env st a).addon.status := by
    unfold unzipEntries
    rw [unzipLoop_addon]
    rfl
  rw [unzip_eq]
  split_ifs
  · simp only
    rw [hs]
    rfl
  · simp only
    rw [hs]
    rfl

theorem unzip_addOnId (env : Env) (st : Mgr) (a : AddOn) :
    (unzip env st a).2.addOnId = a.addOnId := by
  rw [unzip_addon]

theorem unzip_type (env : Env) (st : Mgr) (a : AddOn) :
    (unzip env st a).2.type = a.type := by
  rw [unzip_addon]

theorem unzip_checksum (env : Env) (st : Mgr) (a : AddOn) :
    (unzip env st a).2.checksum = a.checksum := by
  rw [unzip_addon]

theorem unzip_downloadFilename (env : Env) (st : Mgr) (a : AddOn) :
    (unzip env st a).2.downloadFilename = a.downloadFilename := by
  rw [unzip_addon]

/-- `unzip` changes the disk only. -/
theorem unzip_hashes (env : Env) (st : Mgr) (a : AddOn) :
    (unzip env st a).1.hashes = st.hashes ∧
      (unzip env st a).1.downloading = st.downloading := by
  rw [unzip_eq]
  split_ifs <;> exact ⟨rfl, rfl⟩

theorem unzip_unwritable (env : Env) (st : Mgr) (a : AddOn) :
    (unzip env st a).1.fs.unwritable = st.fs.unwritable := by
  rw [unzip_eq]
  split_ifs
  · exact unzipLoop_unwritable _ _ _ _ _
  · simp only [insertAddonInJson_unwritable]
    exact unzipLoop_unwritable _ _ _ _ _

/-! ## `installAddOn` -/

theorem refreshType_hashes (st : Mgr) (t : AddOnType) :
    (refreshType st t).hashes = st.hashes ∧ (refreshType st t).fs = st.fs ∧
      (refreshType st t).downloading = st.downloading := by
  unfold refreshType
  split_ifs <;> exact ⟨rfl, rfl, rfl⟩

/-- When the extraction is not reached, lines 257-277 leave the manager as it is and set
one of three statuses. -/
theorem installFromDisk_not_reached (env : Env) (st : Mgr) (a : AddOn)
    (h : reachesExtraction env st a = false) :
    (installFromDisk env st a).1 = st ∧
      ((installFromDisk env st a).2 = a.setStatus Status.NotInstalled ∨
        (installFromDisk env st a).2 = a.setStatus Status.InvalidFormat ∨
        (installFromDisk env st a).2 = a.setStatus Status.Corrupted) := by
  unfold installFromDisk
  split_ifs with h1 h2 h3
  · exact ⟨rfl, Or.inl rfl⟩
  · exact ⟨rfl, Or.inr (Or.inl rfl)⟩
  · exact ⟨rfl, Or.inr (Or.inr rfl)⟩
  · exfalso
    simp only [Bool.not_eq_true', Bool.not_eq_false] at h1 h2
    rw [not_and_or, not_not, not_not] at h3
    have : reachesExtraction env st a = true := by
      simp only [reachesExtraction, h1, h2, Bool.and_self, Bool.true_and, Bool.or_eq_true,
        decide_eq_true_eq]
      exact h3
    rw [h] at this
    exact Bool.noConfusion this

theorem installFromDisk_eq_of_reached (env : Env) (st : Mgr) (a : AddOn)
    (h : reachesExtraction env st a = true) :
    installFromDisk env st a = extractAndReload env st a := by
  simp only [reachesExtraction, Bool.and_eq_true, Bool.or_eq_true, decide_eq_true_eq] at h
  obtain ⟨⟨h1, h2⟩, h3⟩ := h
  have h3n : ¬ (a.type ≠ AddOnType.ADDON_CATALOG ∧
      a.checksum ≠ calculateMd5 env st.fs (getZipPath env a)) := by
    rintro ⟨n1, n2⟩
    rcases h3 with h3 | h3
    · exact n1 h3
    · exact n2 h3
  unfold installFromDisk
  rw [if_neg (by simp [h1]), if_neg (by simp [h2]), if_neg h3n]

/-- When the extraction is reached, lines 278-287 run `unzip` and `reloadCatalogues`. -/
theorem installFromDisk_reached (env : Env) (st : Mgr) (a : AddOn)
    (h : reachesExtraction env st a = true) :
    (installFromDisk env st a).2 = (unzip env st (a.setStatus Status.Installing)).2 ∧
      (installFromDisk env st a).1.hashes =
        (reloadCatalogues env (unzip env st (a.setStatus Status.Installing)).1).hashes ∧
      (installFromDisk env st a).1.downloading = st.downloading := by
  rw [installFromDisk_eq_of_reached env st a h]
  unfold extractAndReload
  refine ⟨rfl, ?_, ?_⟩
  · exact (refreshType_hashes _ _).1
  · have h1 := (refreshType_hashes (reloadCatalogues env
      (unzip env st (a.setStatus Status.Installing)).1)
      (unzip env st (a.setStatus Status.Installing)).2.type).2.2
    have h2 := (unzip_hashes env st (a.setStatus Status.Installing)).2
    exact h1.trans h2

/-! ## Catalog documents -/

theorem FileSys.read_write (fs : FileSys) (path : String) (c : Content) :
    (fs.write path c).read path = some c := by
  simp [FileSys.read, FileSys.write, List.find?]

theorem mem_jsonInsert (l : List (String × Attributes)) (k : String) (v : Attributes) :
    (k, v) ∈ jsonInsert l k v := by
  induction l with
  | nil => simp [jsonInsert]
  | cons e t ih =>
    obtain ⟨k1, v1⟩ := e
    unfold jsonInsert
    split_ifs with h
    · subst h
      exact List.mem_cons_self _ _
    · exact List.mem_cons_of_mem _ ih

/-- The fold of `loadAddonCatalog` keeps the keys it has and takes up the id of every
valid add-on of the document. -/
theorem loadFold_mem (l : List (String × Attributes)) (acc : QHash) (id : String)
    (h : id ∈ QHash.keys acc ∨ ∃ a, (id, a) ∈ l ∧ (AddOn.new id a).isValid = true) :
    id ∈ QHash.keys (l.foldl
      (fun addons e =>
        if (AddOn.new e.1 e.2).isValid then
          QHash.insert addons (AddOn.new e.1 e.2).addOnId (AddOn.new e.1 e.2)
        else addons) acc) := by
  induction l generalizing acc with
  | nil =>
    rcases h with h | ⟨a, ha, _⟩
    · exact h
    · exact absurd ha (List.not_mem_nil _)
  | cons e t ih =>
    rw [List.foldl_cons]
    apply ih
    rcases h with h | ⟨a, ha, hv⟩
    · left
      split_ifs
      · exact (QHash.mem_keys_insert _ _ _ _).mpr (Or.inr h)
      · exact h
    · rcases List.mem_cons.mp ha with he | ht
      · left
        subst he
        simp only [hv, if_true]
        exact (QHash.mem_keys_insert _ _ _ _).mpr (Or.inl rfl)
      · exact Or.inr ⟨a, ht, hv⟩

/-- A valid add-on that `insertAddonInJson` has written to a document that can be
written is in the catalog loaded from the document. -/
theorem loadAddonCatalog_insertAddonInJson (env : Env) (fs : FileSys) (a : AddOn)
    (path : String) (hw : fs.canWrite path = true) (hv : a.isValid = true) :
    a.addOnId ∈ QHash.keys (loadAddonCatalog env (insertAddonInJson env fs a path) path) := by
  unfold insertAddonInJson
  rw [if_pos hw]
  unfold loadAddonCatalog
  rw [FileSys.read_write]
  simp only [Content.object, Data.object, ne_eq, not_true_eq_false, or_self, if_false]
  apply loadFold_mem
  exact Or.inr ⟨a.attributes, mem_jsonInsert _ _ _, hv⟩

/-- When `unzip` ends with `FullyInstalled` and the installed-state document can be
written, the id of the add-on is in the installed catalog of the disk that `unzip`
leaves. -/
theorem unzip_installed_doc (env : Env) (st : Mgr) (a : AddOn)
    (hw : st.fs.canWrite env.m_sInstalledAddonsJsonPath = true) (hv : a.isValid = true)
    (hs : (unzip env st a).2.status = Status.FullyInstalled) :
    a.addOnId ∈ QHash.keys
      (loadAddonCatalog env (unzip env st a).1.fs env.m_sInstalledAddonsJsonPath) := by
  have hid : ((unzipEntries env st a).addon.setInstalledFiles
      (removeDuplicates (unzipEntries env st a).installedFiles)).addOnId = a.addOnId := by
    unfold unzipEntries
    rw [unzipLoop_addon]
    rfl
  have hvalid : ((unzipEntries env st a).addon.setInstalledFiles
      (removeDuplicates (unzipEntries env st a).installedFiles)).isValid = true := by
    unfold unzipEntries
    rw [unzipLoop_addon]
    exact hv
  have hcw : (unzipEntries env st a).fs.canWrite env.m_sInstalledAddonsJsonPath = true := by
    have hc := FileSys.canWrite_congr st.fs (unzipEntries env st a).fs
      env.m_sInstalledAddonsJsonPath (unzipLoop_unwritable _ _ _ _ _)
    rw [hc]
    exact hw
  rw [unzip_eq] at hs ⊢
  have h := unzipEntries_status env st a
  split_ifs at hs ⊢ with hr
  · rcases h with ⟨_, h2⟩ | ⟨h1, _⟩
    · simp only at hs
      rw [h2] at hs
      exact Status.noConfusion hs
    · rw [h1] at hr
      exact absurd hr Bool.false_ne_true
  · simp only
    rw [← hid]
    exact loadAddonCatalog_insertAddonInJson env _ _ _ hcw hvalid

/-! ## The partitions under `installAddOn` and `installAddOnFromFile` -/

theorem restartOrDownload_hashes (r : Mgr × AddOn) (t : Bool) :
    (restartOrDownload r t).1.hashes = r.1.hashes ∧
      (restartOrDownload r t).1.fs = r.1.fs := by
  unfold restartOrDownload
  split_ifs <;> exact ⟨rfl, rfl⟩

/-- `restartOrDownload` ends with `FullyInstalled` only when it changes nothing. -/
theorem restartOrDownload_fullyInstalled (r : Mgr × AddOn) (t : Bool)
    (h : (restartOrDownload r t).2.status = Status.FullyInstalled) :
    restartOrDownload r t = r := by
  unfold restartOrDownload at h ⊢
  split_ifs at h ⊢ with h1 h2
  · exact Status.noConfusion h
  · exact Status.noConfusion h
  · rfl

/-- The hashes after `installAddOn` are the hashes before it, or those that
`reloadCatalogues` builds on the disk that `unzip` leaves. -/
theorem installAddOn_hashes (env : Env) (st : Mgr) (a : AddOn) (t : Bool) :
    (installAddOn env st a t).1.hashes = st.hashes ∨
      (installAddOn env st a t).1.hashes =
        (reloadCatalogues env (unzip env st (a.setStatus Status.Installing)).1).hashes := by
  unfold installAddOn
  split_ifs
  · exact Or.inl rfl
  · exact Or.inl rfl
  · rw [(restartOrDownload_hashes _ t).1]
    cases hx : reachesExtraction env st a with
    | false =>
      left
      rw [(installFromDisk_not_reached env st a hx).1]
    | true =>
      right
      exact (installFromDisk_reached env st a hx).2.1

/-- `installAddOn` keeps the relation of the three hashes. -/
theorem installAddOn_partitioned (env : Env) (st : Mgr) (a : AddOn) (t : Bool)
    (hp : Partitioned st) : Partitioned (installAddOn env st a t).1 := by
  rcases installAddOn_hashes env st a t with h | h
  · exact partitioned_of_hashes st _ h hp
  · exact partitioned_of_hashes _ _ h (reloadCatalogues_partitioned env _)

/-- When `installAddOn` without download ends with `FullyInstalled`, the id of the add-on
is not a key of `m_addonsAvailable` afterwards, provided it was none before and the
installed-state document can be written. -/
theorem installAddOn_fullyInstalled_not_available (env : Env) (st : Mgr) (a : AddOn)
    (hw : st.fs.canWrite env.m_sInstalledAddonsJsonPath = true)
    (hav : a.addOnId ∉ QHash.keys st.m_addonsAvailable)
    (hs : (installAddOn env st a false).2.status = Status.FullyInstalled) :
    a.addOnId ∉ QHash.keys (installAddOn env st a false).1.m_addonsAvailable := by
  unfold installAddOn at hs ⊢
  split_ifs at hs ⊢ with h1 h2
  · exact hav
  · exact hav
  · have hv : a.isValid = true := by
      cases hvv : a.isValid with
      | true => rfl
      | false => simp [hvv] at h2
    have hr := restartOrDownload_fullyInstalled _ _ hs
    rw [hr] at hs ⊢
    cases hx : reachesExtraction env st a with
    | false =>
      rw [(installFromDisk_not_reached env st a hx).1]
      exact hav
    | true =>
      obtain ⟨e1, e2, _⟩ := installFromDisk_reached env st a hx
      rw [e1] at hs
      have hdoc := unzip_installed_doc env st (a.setStatus Status.Installing) hw hv hs
      have hp := reloadCatalogues_partitioned env
        (unzip env st (a.setStatus Status.Installing)).1 a.addOnId
      simp only [Mgr.hashes, Prod.mk.injEq] at e2
      rw [e2.2.1]
      intro hmem
      exact (hp.1 hmem).1 hdoc

theorem installFromDisk_addOnId (env : Env) (st : Mgr) (a : AddOn) :
    (installFromDisk env st a).2.addOnId = a.addOnId := by
  cases hx : reachesExtraction env st a with
  | false =>
    rcases (installFromDisk_not_reached env st a hx).2 with h | h | h <;> rw [h] <;> rfl
  | true =>
    rw [(installFromDisk_reached env st a hx).1, unzip_addOnId]
    rfl

theorem restartOrDownload_addOnId (r : Mgr × AddOn) (t : Bool) :
    (restartOrDownload r t).2.addOnId = r.2.addOnId := by
  unfold restartOrDownload
  split_ifs <;> rfl

theorem installAddOn_addOnId (env : Env) (st : Mgr) (a : AddOn) (t : Bool) :
    (installAddOn env st a t).2.addOnId = a.addOnId := by
  unfold installAddOn
  split_ifs
  · rfl
  · rfl
  · rw [restartOrDownload_addOnId, installFromDisk_addOnId]

/-- An id that is no key of `m_addonsAvailable` can be inserted into `m_addonsInstalled`.
-/
theorem partitioned_insert_installed (st : Mgr) (fs : FileSys) (id : String) (v : AddOn)
    (hp : Partitioned st) (hav : id ∉ QHash.keys st.m_addonsAvailable) :
    Partitioned
      { st with fs := fs, m_addonsInstalled := QHash.insert st.m_addonsInstalled id v } := by
  intro key
  obtain ⟨h1, h2⟩ := hp key
  constructor
  · intro hk
    refine ⟨?_, (h1 hk).2⟩
    intro hin
    rcases (QHash.mem_keys_insert _ _ _ _).mp hin with he | he
    · subst he
      exact hav hk
    · exact (h1 hk).1 he
  · intro hk
    exact (QHash.mem_keys_insert _ _ _ _).mpr (Or.inr (h2 hk))

/-- Lines 208-240 keep the relation of the three hashes when the installed-state
document can be written. -/
theorem installInspected_partitioned (env : Env) (st : Mgr) (a : AddOn)
    (hw : st.fs.canWrite env.m_sInstalledAddonsJsonPath = true) (hp : Partitioned st) :
    Partitioned (installInspected env st a) := by
  unfold installInspected
  cases h1 : QHash.value st.m_addonsAvailable a.addOnId with
  | some b =>
    simp only
    split_ifs
    · exact hp
    · exact installAddOn_partitioned env st b false hp
  | none =>
    cases h2 : QHash.value st.m_addonsToUpdate a.addOnId with
    | some b =>
      simp only
      split_ifs
      · exact hp
      · exact installAddOn_partitioned env st b false hp
    | none =>
      simp only
      have hav := (QHash.value_eq_none_iff _ _).mp h1
      split_ifs with hs
      · have hnot := installAddOn_fullyInstalled_not_available env st a hw hav hs
        rw [installAddOn_addOnId]
        exact partitioned_insert_installed _ _ _ _
          (installAddOn_partitioned env st a false hp) hnot
      · exact installAddOn_partitioned env st a false hp

/-- `installAddOnFromFile` keeps the relation of the three hashes when the
installed-state document can be written. -/
theorem installAddOnFromFile_partitioned (env : Env) (st st' : Mgr) (filePath : String)
    (hw : st.fs.canWrite env.m_sInstalledAddonsJsonPath = true) (hp : Partitioned st)
    (h : installAddOnFromFile env st filePath = Except.ok st') : Partitioned st' := by
  unfold installAddOnFromFile at h
  cases hz : getAddOnFromZip env st.fs filePath with
  | error f =>
    rw [hz] at h
    exact Except.noConfusion h
  | ok o =>
    rw [hz] at h
    cases o with
    | none =>
      simp only [Except.ok.injEq] at h
      rw [← h]
      exact hp
    | some a =>
      simp only at h
      split_ifs at h with hv hc
      · simp only [Except.ok.injEq] at h
        rw [← h]
        exact hp
      · cases hcp : copyFile st.fs filePath (getZipPath env a) with
        | none =>
          rw [hcp] at h
          simp only [Except.ok.injEq] at h
          rw [← h]
          exact hp
        | some fs =>
          rw [hcp] at h
          simp only [Except.ok.injEq] at h
          rw [← h]
          have hfs : fs.unwritable = st.fs.unwritable := by
            unfold copyFile at hcp
            cases hr : st.fs.read filePath with
            | none =>
              rw [hr] at hcp
              exact Option.noConfusion hcp
            | some c =>
              rw [hr] at hcp
              simp only at hcp
              split_ifs at hcp
              simp only [Option.some.injEq] at hcp
              rw [← hcp]
              rfl
          apply installInspected_partitioned
          · rw [FileSys.canWrite_congr st.fs fs _ hfs]
            exact hw
          · exact partitioned_of_hashes st _ rfl hp
      · simp only [Except.ok.injEq] at h
        rw [← h]
        exact installInspected_partitioned env st a hw hp

/-- C3, amended: after every `reloadCatalogues` no key of `m_addonsAvailable` is a key of
`m_addonsInstalled` or of `m_addonsToUpdate`, and every key of `m_addonsToUpdate` is a key
of `m_addonsInstalled`; `installAddOnFromFile` keeps this relation of the three hashes
when the installed-state document can be written. -/
theorem partitions_after_reload_and_install (env : Env) (st : Mgr) :
    Partitioned (reloadCatalogues env st) ∧
      ∀ (filePath : String) (st' : Mgr),
        Partitioned st → st.fs.canWrite env.m_sInstalledAddonsJsonPath = true →
        installAddOnFromFile env st filePath = Except.ok st' → Partitioned st' :=
  ⟨reloadCatalogues_partitioned env st,
    fun filePath st' hp hw h => installAddOnFromFile_partitioned env st st' filePath hw hp h⟩

/-- An instance of the amended C3: the archive of `moon` is installed from its file on a
manager with empty hashes. -/
theorem partitions_after_reload_and_install_witness : Partitioned moonInstalledState :=
  (partitions_after_reload_and_install exampleEnv (moonState moonEntries)).2 moonZip
    moonInstalledState
    (fun _ => ⟨fun h => absurd h (List.not_mem_nil _), fun h => absurd h (List.not_mem_nil _)⟩)
    (by decide) (by rfl)

/-! ## Checksum mismatch -/

/-- C4 as it is stated fails for `tryDownload = true`: the file at the path of the archive
of `moon` has digest `000`, the declared checksum is `abc`, and `installAddOn` returns with
status `Installing`. -/
theorem installAddOn_corrupted_download_counterexample :
    (moon AddOnType.LANDSCAPE).isValid = true ∧
      isDownloading brokenMoonState (moon AddOnType.LANDSCAPE) = false ∧
      (moon AddOnType.LANDSCAPE).type ≠ AddOnType.ADDON_CATALOG ∧
      brokenMoonState.fs.fileExists (getZipPath exampleEnv (moon AddOnType.LANDSCAPE)) = true ∧
      endsWith (getZipPath exampleEnv (moon AddOnType.LANDSCAPE)) ".zip" = true ∧
      (moon AddOnType.LANDSCAPE).checksum ≠
        calculateMd5 exampleEnv brokenMoonState.fs
          (getZipPath exampleEnv (moon AddOnType.LANDSCAPE)) ∧
      (installAddOn exampleEnv brokenMoonState (moon AddOnType.LANDSCAPE) true).2.status =
        Status.Installing := by
  decide

/-- C4, amended: for a valid add-on that is not being downloaded, whose type is not
add-on-catalog, whose archive exists with a name ending in `.zip` and has a digest that
differs from the declared checksum, `installAddOn(addon, false)` returns with status
`Corrupted` and leaves the manager and the disk as they are; `installAddOn(addon, true)`
returns with status `Installing`, has asked the download manager for the add-on and leaves
the disk as it is. -/
theorem installAddOn_corrupted (env : Env) (st : Mgr) (a : AddOn)
    (hd : isDownloading st a = false) (hv : a.isValid = true)
    (ht : a.type ≠ AddOnType.ADDON_CATALOG)
    (he : st.fs.fileExists (getZipPath env a) = true)
    (hz : endsWith (getZipPath env a) ".zip" = true)
    (hm : a.checksum ≠ calculateMd5 env st.fs (getZipPath env a)) :
    (installAddOn env st a false).2.status = Status.Corrupted ∧
      (installAddOn env st a false).1 = st ∧
      (installAddOn env st a true).2.status = Status.Installing ∧
      (installAddOn env st a true).1.fs = st.fs ∧
      a.addOnId ∈ (installAddOn env st a true).1.downloading := by
  have hdisk : installFromDisk env st a = (st, a.setStatus Status.Corrupted) := by
    unfold installFromDisk
    rw [if_neg (by simp [he]), if_neg (by simp [hz]), if_pos ⟨ht, hm⟩]
  have hr : requiresRestart (a.setStatus Status.Corrupted).type = true ∨
      requiresRestart (a.setStatus Status.Corrupted).type = false := by
    cases requiresRestart (a.setStatus Status.Corrupted).type
    · exact Or.inr rfl
    · exact Or.inl rfl
  unfold installAddOn
  rw [if_neg (by simp [hd]), if_neg (by simp [hv]), if_neg (by simp [hd]),
    if_neg (by simp [hv]), hdisk]
  unfold restartOrDownload
  simp [AddOn.setStatus, download]

/-- An instance of the amended C4: the file at the path of the archive of `moon` with
digest `000`. -/
theorem installAddOn_corrupted_witness :
    (installAddOn exampleEnv brokenMoonState (moon AddOnType.LANDSCAPE) false).2.status =
        Status.Corrupted ∧
      (installAddOn exampleEnv brokenMoonState (moon AddOnType.LANDSCAPE) false).1 =
        brokenMoonState ∧
      (installAddOn exampleEnv brokenMoonState (moon AddOnType.LANDSCAPE) true).2.status =
        Status.Installing ∧
      (installAddOn exampleEnv brokenMoonState (moon AddOnType.LANDSCAPE) true).1.fs =
        brokenMoonState.fs ∧
      (moon AddOnType.LANDSCAPE).addOnId ∈
        (installAddOn exampleEnv brokenMoonState (moon AddOnType.LANDSCAPE) true).1.downloading :=
  installAddOn_corrupted exampleEnv brokenMoonState (moon AddOnType.LANDSCAPE) (by decide)
    (by decide) (by decide) (by decide) (by decide) (by decide)

/-! ## Destinations -/

/-- The first entry that is not skipped and has no valid directory ends the loop of
`unzip` with `InvalidDestination`; neither it nor an entry after it is written: the disk
and the list of installed files are those that the entries before it leave. -/
theorem unzipLoop_invalid_destination (env : Env) (pre post : List FileInfo)
    (info : FileInfo) (fs : FileSys) (a : AddOn) (files : List String)
    (hpre : ∀ e ∈ pre, skipsEntry e = true ∨ validDir e = true)
    (hskip : skipsEntry info = false) (hdir : validDir info = false) :
    (unzipLoop env (pre ++ info :: post) fs a files).returned = true ∧
      (unzipLoop env (pre ++ info :: post) fs a files).addon.status =
        Status.InvalidDestination ∧
      (unzipLoop env (pre ++ info :: post) fs a files).fs = (unzipLoop env pre fs a files).fs ∧
      (unzipLoop env (pre ++ info :: post) fs a files).installedFiles =
        (unzipLoop env pre fs a files).installedFiles := by
  induction pre generalizing fs a files with
  | nil =>
    simp [unzipLoop, hskip, hdir, AddOn.setStatus]
  | cons e rest ih =>
    have hrest : ∀ x ∈ rest, skipsEntry x = true ∨ validDir x = true :=
      fun x hx => hpre x (List.mem_cons_of_mem _ hx)
    rw [List.cons_append]
    unfold unzipLoop
    split_ifs with h1 h2 h3
    · exact ih fs a files hrest
    · rcases hpre e (List.mem_cons_self _ _) with h | h
      · exact absurd h h1
      · simp [h] at h2
    · exact ih _ _ _ hrest
    · exact ih _ _ _ hrest

/-- The defect behind C5 (and C19): line 447 skips every entry whose path contains
`info.json`, while `getAddOnFromZip` (line 377) takes as manifest an entry whose path ends
in it. The entry `evil/info.json.txt` is a file, is no manifest and starts with none of
the eight directories; `unzip` skips it, writes the entry `textures/a` that comes after it
and ends with `FullyInstalled`. -/
theorem unzip_skips_disallowed_entry :
    (fileEntry "evil/info.json.txt").isFile = true ∧
      endsWith (fileEntry "evil/info.json.txt").filePath "info.json" = false ∧
      validDir (fileEntry "evil/info.json.txt") = false ∧
      (unzip exampleEnv (moonState [fileEntry "evil/info.json.txt", fileEntry "textures/a"])
        (moon AddOnType.LANDSCAPE)).2.status = Status.FullyInstalled ∧
      (unzip exampleEnv (moonState [fileEntry "evil/info.json.txt", fileEntry "textures/a"])
        (moon AddOnType.LANDSCAPE)).1.fs.fileExists "/home/u/.stellarium/textures/a" = true := by
  decide

/-- The path of the scenario of C5, `evil/../../etc/passwd`, does end the extraction with
`InvalidDestination`, and the entry is not written. -/
theorem unzip_evil_path :
    (unzip exampleEnv (moonState [fileEntry "textures/a", fileEntry "evil/../../etc/passwd"])
        (moon AddOnType.LANDSCAPE)).2.status = Status.InvalidDestination ∧
      (unzip exampleEnv (moonState [fileEntry "textures/a", fileEntry "evil/../../etc/passwd"])
        (moon AddOnType.LANDSCAPE)).1.fs.fileExists "/home/u/etc/passwd" = false ∧
      destination exampleEnv (fileEntry "evil/../../etc/passwd") = "/home/u/etc/passwd" := by
  decide

/-- The defect behind C6: the test of lines 456-463 looks at the first characters of the
path only. The entry `addon/../../x` passes it and is written to `/home/u/x`, outside the
user directory `/home/u/.stellarium` and so outside its eight category directories. -/
theorem unzip_writes_outside_category_dirs :
    validDir (fileEntry "addon/../../x") = true ∧
      (unzip exampleEnv (moonState [fileEntry "addon/../../x"])
        (moon AddOnType.LANDSCAPE)).2.status = Status.FullyInstalled ∧
      (unzip exampleEnv (moonState [fileEntry "addon/../../x"])
        (moon AddOnType.LANDSCAPE)).2.installedFiles = ["/home/u/x"] ∧
      (moonState [fileEntry "addon/../../x"]).fs.fileExists "/home/u/x" = false ∧
      (unzip exampleEnv (moonState [fileEntry "addon/../../x"])
        (moon AddOnType.LANDSCAPE)).1.fs.fileExists "/home/u/x" = true ∧
      insideCategoryDir exampleEnv "/home/u/x" = false ∧
      insideCategoryDir exampleEnv "/home/u/.stellarium/addon/x" = true := by
  decide

/-- The defect behind C7: after line 440 has set `UnableToRead` there is no `return`, and
line 444 sets `FullyInstalled`. The file at the path of the archive of `moon` is no zip
archive; `unzip` ends with `FullyInstalled`, and so does `installAddOn` for an add-on
catalog (whose checksum is not checked) and for an add-on whose declared checksum is the
digest of the file. -/
theorem unzip_unreadable_archive :
    openZip brokenMoonState.fs (getZipPath exampleEnv (moon AddOnType.ADDON_CATALOG)) = none ∧
      (unzip exampleEnv brokenMoonState (moon AddOnType.ADDON_CATALOG)).2.status =
        Status.FullyInstalled ∧
      (installAddOn exampleEnv brokenMoonState (moon AddOnType.ADDON_CATALOG) false).2.status =
        Status.FullyInstalled ∧
      (installAddOn exampleEnv brokenMoonState
        { moon AddOnType.TEXTURE with checksum := "000" } false).2.status = Status.Restart := by
  decide

/-! ## `removeAddOn` -/

/-- Over files none of which exists the loop of `removeAddOn` leaves the disk and the
add-on as they are and takes every file off the list. -/
theorem removeLoop_absent (rest : List String) (fs : FileSys) (a : AddOn)
    (files : List String) (habs : ∀ f ∈ rest, fs.fileExists f = false) :
    removeLoop rest fs a files =
      { fs := fs, addon := a, installedFiles := rest.foldl List.erase files } := by
  induction rest generalizing files with
  | nil => rfl
  | cons f t ih =>
    unfold removeLoop
    rw [if_pos (by simp [habs f (List.mem_cons_self _ _)])]
    rw [ih _ (fun x hx => habs x (List.mem_cons_of_mem _ hx))]
    rfl

theorem removeFinish_status (env : Env) (st : Mgr) (a : AddOn) (files : List String) :
    (removeFinish env st a files).2.status =
      if requiresRestart a.type then Status.Restart else a.status := by
  unfold removeFinish
  simp only [AddOn.setInstalledFiles]
  split_ifs <;> rfl

/-- C8 as it is stated fails for a type that requires a restart: the texture `moon` has
two recorded files, none of which is on the disk, and `removeAddOn` ends with `Restart`.
-/
theorem removeAddOn_absent_files_counterexample :
    (moonWithFiles AddOnType.TEXTURE).isValid = true ∧
      (∀ f ∈ (moonWithFiles AddOnType.TEXTURE).installedFiles,
        (moonState []).fs.fileExists f = false) ∧
      (removeAddOn exampleEnv (moonState []) (moonWithFiles AddOnType.TEXTURE)).2.status =
        Status.Restart := by
  decide

/-- C8, amended: for a valid add-on whose recorded installed files are all absent from
the disk, `removeAddOn` ends with status `NotInstalled` when the type requires no restart,
and with status `Restart` when the type is plugin-catalog, star-catalog,
language-skyculture, language-application or texture. -/
theorem removeAddOn_absent_files (env : Env) (st : Mgr) (a : AddOn)
    (hv : a.isValid = true)
    (habs : ∀ f ∈ a.installedFiles, st.fs.fileExists f = false) :
    (removeAddOn env st a).2.status =
      if requiresRestart a.type then Status.Restart else Status.NotInstalled := by
  unfold removeAddOn
  rw [if_neg (by simp [hv])]
  simp only
  rw [removeLoop_absent (a.setStatus Status.NotInstalled).installedFiles st.fs
    (a.setStatus Status.NotInstalled) _ habs]
  simp only [AddOn.setStatus, if_true]
  rw [removeFinish_status]

/-- An instance of the amended C8: the landscape `moon` with two recorded files, none of
which is on the disk. -/
theorem removeAddOn_absent_files_witness :
    (removeAddOn exampleEnv (moonState []) (moonWithFiles AddOnType.LANDSCAPE)).2.status =
      Status.NotInstalled :=
  removeAddOn_absent_files exampleEnv (moonState []) (moonWithFiles AddOnType.LANDSCAPE)
    (by decide) (by decide)

/-! ## Strings and lists -/

theorem containsChars_append (t p : List Char) : containsChars (t ++ p) p = true := by
  induction t with
  | nil =>
    cases p with
    | nil => rfl
    | cons c cs =>
      simp only [List.nil_append, containsChars, Bool.or_eq_true]
      exact Or.inl (List.isPrefixOf_iff_prefix.mpr (List.prefix_refl _))
  | cons c cs ih =>
    simp only [List.cons_append, containsChars, Bool.or_eq_true]
    exact Or.inr ih

/-- A string that ends in `p` contains `p`. -/
theorem contains_of_endsWith (s p : String) (h : endsWith s p = true) :
    contains s p = true := by
  unfold endsWith at h
  obtain ⟨t, ht⟩ := List.isSuffixOf_iff_suffix.mp h
  unfold contains
  rw [← ht]
  exact containsChars_append t p.data

/-- An entry that line 447 does not skip is a file whose path does not end in
`info.json`. -/
theorem not_manifest_of_not_skipped (e : FileInfo) (h : skipsEntry e = false) :
    e.isFile = true ∧ endsWith e.filePath "info.json" = false := by
  unfold skipsEntry at h
  simp only [Bool.or_eq_false_iff, Bool.not_eq_false'] at h
  refine ⟨h.1, ?_⟩
  cases he : endsWith e.filePath "info.json" with
  | false => rfl
  | true =>
    rw [contains_of_endsWith _ _ he] at h
    exact absurd h.2 (by decide)

theorem removeDuplicates_fold_mem (l acc : List String) (x : String) :
    x ∈ l.foldl (fun acc x => if x ∈ acc then acc else acc ++ [x]) acc ↔ x ∈ acc ∨ x ∈ l := by
  induction l generalizing acc with
  | nil => simp
  | cons y t ih =>
    rw [List.foldl_cons, ih]
    by_cases hy : y ∈ acc
    · simp only [hy, if_true, List.mem_cons]
      constructor
      · rintro (h | h)
        · exact Or.inl h
        · exact Or.inr (Or.inr h)
      · rintro (h | h | h)
        · exact Or.inl h
        · subst h
          exact Or.inl hy
        · exact Or.inr h
    · simp only [hy, if_false, List.mem_append, List.mem_singleton, List.mem_cons]
      tauto

theorem removeDuplicates_mem (l : List String) (x : String) :
    x ∈ removeDuplicates l ↔ x ∈ l := by
  unfold removeDuplicates
  rw [removeDuplicates_fold_mem]
  simp

theorem removeDuplicates_fold_nodup (l acc : List String) (h : acc.Nodup) :
    (l.foldl (fun acc x => if x ∈ acc then acc else acc ++ [x]) acc).Nodup := by
  induction l generalizing acc with
  | nil => exact h
  | cons y t ih =>
    rw [List.foldl_cons]
    apply ih
    by_cases hy : y ∈ acc
    · simp only [hy, if_true]
      exact h
    · simp only [hy, if_false]
      rw [List.nodup_append]
      refine ⟨h, List.nodup_singleton _, ?_⟩
      intro a ha hb
      rw [List.mem_singleton] at hb
      subst hb
      exact hy ha

theorem removeDuplicates_nodup (l : List String) : (removeDuplicates l).Nodup :=
  removeDuplicates_fold_nodup l [] List.nodup_nil

theorem removeDuplicates_fold_of_nodup (l acc : List String) (h : (acc ++ l).Nodup) :
    l.foldl (fun acc x => if x ∈ acc then acc else acc ++ [x]) acc = acc ++ l := by
  induction l generalizing acc with
  | nil => simp
  | cons y t ih =>
    have hy : y ∉ acc := by
      intro hmem
      rw [List.nodup_append] at h
      exact h.2.2 hmem (List.mem_cons_self _ _)
    rw [List.foldl_cons]
    simp only [hy, if_false]
    rw [ih]
    · simp
    · simpa using h

theorem removeDuplicates_fold_of_subset (w acc : List String) (h : ∀ x ∈ w, x ∈ acc) :
    w.foldl (fun acc x => if x ∈ acc then acc else acc ++ [x]) acc = acc := by
  induction w with
  | nil => rfl
  | cons y t ih =>
    rw [List.foldl_cons]
    simp only [h y (List.mem_cons_self _ _), if_true]
    exact ih (fun x hx => h x (List.mem_cons_of_mem _ hx))

/-- Appending strings that a list without duplicates has already does not change what
`removeDuplicates` gives. -/
theorem removeDuplicates_append_of_subset (l w : List String) (hl : l.Nodup)
    (hw : ∀ x ∈ w, x ∈ l) : removeDuplicates (l ++ w) = l := by
  unfold removeDuplicates
  rw [List.foldl_append, removeDuplicates_fold_of_nodup l [] (by simpa using hl)]
  simp only [List.nil_append]
  exact removeDuplicates_fold_of_subset w l hw

/-! ## A successful installation -/

/-- When every entry that is not skipped has a valid directory and a destination that can
be written, the loop of `unzip` runs to the end, leaves the status as it is and appends
the destinations to the installed files. -/
theorem unzipLoop_all_written (env : Env) (es : List FileInfo) (fs : FileSys) (a : AddOn)
    (files : List String)
    (hok : ∀ e ∈ es, skipsEntry e = false →
      validDir e = true ∧ fs.canWrite (destination env e) = true) :
    (unzipLoop env es fs a files).returned = false ∧
      (unzipLoop env es fs a files).addon = a ∧
      (unzipLoop env es fs a files).installedFiles = files ++ writtenPaths env es := by
  induction es generalizing fs files with
  | nil => simp [unzipLoop, writtenPaths]
  | cons e rest ih =>
    have hrest : ∀ fs' : FileSys, fs'.unwritable = fs.unwritable →
        ∀ x ∈ rest, skipsEntry x = false →
          validDir x = true ∧ fs'.canWrite (destination env x) = true := by
      intro fs' hfs x hx hs
      rw [FileSys.canWrite_congr fs fs' _ hfs]
      exact hok x (List.mem_cons_of_mem _ hx) hs
    unfold unzipLoop
    cases hs : skipsEntry e with
    | true =>
      simp only [if_true]
      have := ih fs files (hrest fs rfl)
      simpa [writtenPaths, hs] using this
    | false =>
      obtain ⟨hd, hw⟩ := hok e (List.mem_cons_self _ _) hs
      have hw2 : (fs.remove (destination env e)).2.canWrite (destination env e) = true := by
        rw [FileSys.canWrite_congr fs _ _ (FileSys.remove_unwritable fs _)]
        exact hw
      simp only [Bool.false_eq_true, if_false, hd, Bool.not_true, hw2]
      have := ih ((fs.remove (destination env e)).2.write (destination env e)
        (Content.data e.data)) (files ++ [destination env e])
        (hrest _ (by rw [FileSys.write_unwritable, FileSys.remove_unwritable]))
      refine ⟨this.1, this.2.1, ?_⟩
      rw [this.2.2]
      simp [writtenPaths, hs]

theorem FileSys.remove_undeletable (fs : FileSys) (path : String) :
    (fs.remove path).2.undeletable = fs.undeletable := by
  unfold FileSys.remove
  split_ifs <;> rfl

theorem unzipLoop_undeletable (env : Env) (es : List FileInfo) (fs : FileSys) (a : AddOn)
    (files : List String) :
    (unzipLoop env es fs a files).fs.undeletable = fs.undeletable := by
  induction es generalizing fs a files with
  | nil => rfl
  | cons info rest ih =>
    unfold unzipLoop
    split_ifs
    · exact ih fs a files
    · rfl
    · rw [ih, FileSys.remove_undeletable]
    · rw [ih]
      exact FileSys.remove_undeletable fs _

theorem insertAddonInJson_undeletable (env : Env) (fs : FileSys) (a : AddOn)
    (path : String) : (insertAddonInJson env fs a path).undeletable = fs.undeletable := by
  unfold insertAddonInJson
  split_ifs <;> rfl

theorem unzip_undeletable (env : Env) (st : Mgr) (a : AddOn) :
    (unzip env st a).1.fs.undeletable = st.fs.undeletable := by
  rw [unzip_eq]
  split_ifs
  · exact unzipLoop_undeletable _ _ _ _ _
  · simp only [insertAddonInJson_undeletable]
    exact unzipLoop_undeletable _ _ _ _ _

/-- After `QFile::remove` there is no file at the path, unless the file cannot be
deleted. -/
theorem FileSys.remove_fileExists (fs : FileSys) (path : String)
    (h : path ∉ fs.undeletable) : (fs.remove path).2.fileExists path = false := by
  unfold FileSys.remove
  cases he : fs.fileExists path with
  | false =>
    simp only [Bool.false_and, Bool.false_eq_true, if_false]
    exact he
  | true =>
    simp only [h, not_false_eq_true, decide_True, Bool.and_self, if_true]
    simp only [FileSys.fileExists, FileSys.read, Option.isSome_map']
    have hnone : List.find? (fun e => decide (e.1 = path))
        (List.filter (fun e => decide (e.1 ≠ path)) fs.files) = none := by
      rw [List.find?_eq_none]
      intro x hx
      have := (List.mem_filter.mp hx).2
      simpa using this
    rw [hnone]
    rfl

/-- What `unzip` gives when it writes every entry that it does not skip. -/
theorem unzip_all_written (env : Env) (st : Mgr) (a : AddOn) (entries : List FileInfo)
    (hread : openZip st.fs (getZipPath env a) = some entries)
    (hok : ∀ e ∈ entries, skipsEntry e = false →
      validDir e = true ∧ st.fs.canWrite (destination env e) = true) :
    (unzip env st a).2 =
      { a with
        status := Status.FullyInstalled
        installedFiles := removeDuplicates (a.installedFiles ++ writtenPaths env entries) } := by
  have h := unzipLoop_all_written env entries st.fs (a.setStatus Status.FullyInstalled)
    a.installedFiles hok
  have he : unzipEntries env st a = unzipLoop env entries st.fs
      (a.setStatus Status.FullyInstalled) a.installedFiles := by
    unfold unzipEntries
    rw [hread]
    rfl
  rw [unzip_eq, he, h.1, h.2.1, h.2.2]
  rfl

/-- Lines 280-286 leave the disk of `unzip` with the archive removed. -/
theorem extractAndReload_fs (env : Env) (st : Mgr) (a : AddOn) :
    (extractAndReload env st a).1.fs =
      ((unzip env st (a.setStatus Status.Installing)).1.fs.remove (getZipPath env a)).2 := by
  unfold extractAndReload
  simp only
  rw [(refreshType_hashes _ _).2.1]
  have : getZipPath env (unzip env st (a.setStatus Status.Installing)).2 = getZipPath env a := by
    unfold getZipPath
    rw [unzip_downloadFilename]
    rfl
  rw [this]
  rfl

theorem openZip_some (fs : FileSys) (path : String) (entries : List FileInfo)
    (h : openZip fs path = some entries) : fs.read path = some (Content.zip entries) := by
  unfold openZip at h
  cases hr : fs.read path with
  | none =>
    rw [hr] at h
    exact Option.noConfusion h
  | some c =>
    rw [hr] at h
    cases c with
    | data d => exact Option.noConfusion h
    | zip es =>
      simp only [Option.some.injEq] at h
      rw [h]

/-- The result of `installAddOn` when the archive opens and every entry that is not
skipped has a valid directory and a destination that can be written. -/
theorem installAddOn_all_written (env : Env) (st : Mgr) (a : AddOn) (t : Bool)
    (entries : List FileInfo)
    (hd : isDownloading st a = false) (hv : a.isValid = true)
    (hread : openZip st.fs (getZipPath env a) = some entries)
    (hz : endsWith (getZipPath env a) ".zip" = true)
    (hsum : a.type = AddOnType.ADDON_CATALOG ∨
      a.checksum = calculateMd5 env st.fs (getZipPath env a))
    (hok : ∀ e ∈ entries, skipsEntry e = false →
      validDir e = true ∧ st.fs.canWrite (destination env e) = true) :
    (installAddOn env st a t).2 =
        { a with
          status := if requiresRestart a.type then Status.Restart else Status.FullyInstalled
          installedFiles :=
            removeDuplicates (a.installedFiles ++ writtenPaths env entries) } ∧
      (installAddOn env st a t).1.downloading = st.downloading ∧
      (installAddOn env st a t).1.fs =
        ((unzip env st (a.setStatus Status.Installing)).1.fs.remove (getZipPath env a)).2 := by
  have hex : st.fs.fileExists (getZipPath env a) = true := by
    unfold FileSys.fileExists
    rw [openZip_some _ _ _ hread]
    rfl
  have hx : reachesExtraction env st a = true := by
    unfold reachesExtraction
    rw [hex, hz]
    simp only [Bool.and_self, Bool.true_and, Bool.or_eq_true, decide_eq_true_eq]
    exact hsum
  have hdisk := installFromDisk_eq_of_reached env st a hx
  have hu : (unzip env st (a.setStatus Status.Installing)).2 =
      { a with
        status := Status.FullyInstalled
        installedFiles := removeDuplicates (a.installedFiles ++ writtenPaths env entries) } :=
    unzip_all_written env st (a.setStatus Status.Installing) entries hread hok
  have h2 : (extractAndReload env st a).2 =
      { a with
        status := Status.FullyInstalled
        installedFiles := removeDuplicates (a.installedFiles ++ writtenPaths env entries) } :=
    hu
  have hdl : (extractAndReload env st a).1.downloading = st.downloading := by
    rw [← hdisk]
    exact (installFromDisk_reached env st a hx).2.2
  have hst : (extractAndReload env st a).2.status = Status.FullyInstalled := by rw [h2]
  have hty : (extractAndReload env st a).2.type = a.type := by rw [h2]
  have hrd : restartOrDownload (extractAndReload env st a) t =
      if requiresRestart a.type then
        ((extractAndReload env st a).1.emit Signal.restartRequired,
          (extractAndReload env st a).2.setStatus Status.Restart)
      else extractAndReload env st a := by
    unfold restartOrDownload
    rw [hst, hty]
    cases hr : requiresRestart a.type with
    | true => simp
    | false => simp
  unfold installAddOn
  rw [if_neg (by simp [hd]), if_neg (by simp [hv]), hdisk]
  refine ⟨?_, ?_, ?_⟩
  · rw [hrd]
    cases hr : requiresRestart a.type with
    | true =>
      simp only [if_true]
      rw [h2]
      rfl
    | false =>
      simp only [Bool.false_eq_true, if_false]
      exact h2
  · rw [hrd]
    split_ifs
    · exact hdl
    · exact hdl
  · rw [(restartOrDownload_hashes _ t).2, extractAndReload_fs]

/-- C10: for a valid add-on that is not being downloaded, whose archive opens, has a path
ending in `.zip` and passes the checksum check (or is an add-on catalog), and in whose
archive every file entry that is no manifest has a valid directory and a destination that
can be written, `installAddOn` ends with status `Restart` if the type is plugin-catalog,
star-catalog, language-skyculture, language-application or texture, and with status
`FullyInstalled` for every other type. -/
theorem installAddOn_success_status (env : Env) (st : Mgr) (a : AddOn) (tryDownload : Bool)
    (entries : List FileInfo)
    (hd : isDownloading st a = false) (hv : a.isValid = true)
    (hread : openZip st.fs (getZipPath env a) = some entries)
    (hz : endsWith (getZipPath env a) ".zip" = true)
    (hsum : a.type = AddOnType.ADDON_CATALOG ∨
      a.checksum = calculateMd5 env st.fs (getZipPath env a))
    (hok : ∀ e ∈ entries, e.isFile = true → endsWith e.filePath "info.json" = false →
      validDir e = true ∧ st.fs.canWrite (destination env e) = true) :
    (installAddOn env st a tryDownload).2.status =
      if requiresRestart a.type then Status.Restart else Status.FullyInstalled := by
  have hok2 : ∀ e ∈ entries, skipsEntry e = false →
      validDir e = true ∧ st.fs.canWrite (destination env e) = true := by
    intro e he hs
    obtain ⟨h1, h2⟩ := not_manifest_of_not_skipped e hs
    exact hok e he h1 h2
  rw [(installAddOn_all_written env st a tryDownload entries hd hv hread hz hsum hok2).1]

/-- Two instances of C10: the archive of `moon` installed as a landscape ends with
`FullyInstalled`, installed as a texture it ends with `Restart`. -/
theorem installAddOn_success_status_witness :
    (installAddOn exampleEnv (moonState moonEntries) (moon AddOnType.LANDSCAPE) true).2.status =
        Status.FullyInstalled ∧
      (installAddOn exampleEnv (moonState moonEntries) (moon AddOnType.TEXTURE) false).2.status =
        Status.Restart :=
  ⟨installAddOn_success_status exampleEnv (moonState moonEntries) (moon AddOnType.LANDSCAPE)
      true moonEntries (by decide) (by decide) (by decide) (by decide) (by decide) (by decide),
    installAddOn_success_status exampleEnv (moonState moonEntries) (moon AddOnType.TEXTURE)
      false moonEntries (by decide) (by decide) (by decide) (by decide) (by decide)
      (by decide)⟩

/-! ## Installing twice -/

/-- Without download, `installAddOn` on an add-on whose archive is missing sets
`NotInstalled` and nothing else. -/
theorem installAddOn_missing_archive (env : Env) (st : Mgr) (a : AddOn)
    (hd : isDownloading st a = false) (hv : a.isValid = true)
    (he : st.fs.fileExists (getZipPath env a) = false) :
    installAddOn env st a false = (st, a.setStatus Status.NotInstalled) := by
  unfold installAddOn
  rw [if_neg (by simp [hd]), if_neg (by simp [hv])]
  unfold installFromDisk
  rw [if_pos (by simp [he])]
  unfold restartOrDownload
  simp [AddOn.setStatus]

/-- C9 as it is stated fails: the first `installAddOn(addon, false)` of the landscape
`moon` ends with `FullyInstalled` and removes the archive (line 286), so the second call
in a row ends with `NotInstalled`. And while `moon` is being downloaded, `installAddOn`
returns at line 247 and leaves the status it found, here `NotInstalled`. -/
theorem installAddOn_twice_counterexample :
    (moon AddOnType.LANDSCAPE).isValid = true ∧
      openZip (moonState moonEntries).fs (getZipPath exampleEnv (moon AddOnType.LANDSCAPE)) =
        some moonEntries ∧
      endsWith (getZipPath exampleEnv (moon AddOnType.LANDSCAPE)) ".zip" = true ∧
      (moon AddOnType.LANDSCAPE).checksum =
        calculateMd5 exampleEnv (moonState moonEntries).fs
          (getZipPath exampleEnv (moon AddOnType.LANDSCAPE)) ∧
      (∀ e ∈ moonEntries, e.isFile = true → endsWith e.filePath "info.json" = false →
        validDir e = true ∧
          (moonState moonEntries).fs.canWrite (destination exampleEnv e) = true) ∧
      moonFirst.2.status = Status.FullyInstalled ∧
      moonSecond.2.status = Status.NotInstalled ∧
      (installAddOn exampleEnv { moonState moonEntries with downloading := ["moon"] }
        (moon AddOnType.LANDSCAPE) false).2.status = Status.NotInstalled := by
  decide

/-- C9, amended: for a valid add-on that is not being downloaded, whose archive opens,
has a path ending in `.zip`, matches the declared checksum (or is an add-on catalog) and
has a valid directory and a destination that can be written for every file entry that is
no manifest, the first `installAddOn(addon, false)` ends with `FullyInstalled` or
`Restart`. It removes the archive: when the archive can be deleted, a second call in a row
ends with `NotInstalled` and leaves the installed files as they are. When the archive is
put back before it, the second call ends with the status of the first, and the installed
files after it are those after the first. -/
theorem installAddOn_twice (env : Env) (st : Mgr) (a : AddOn) (entries : List FileInfo)
    (hd : isDownloading st a = false) (hv : a.isValid = true)
    (hread : openZip st.fs (getZipPath env a) = some entries)
    (hz : endsWith (getZipPath env a) ".zip" = true)
    (hsum : a.type = AddOnType.ADDON_CATALOG ∨
      a.checksum = calculateMd5 env st.fs (getZipPath env a))
    (hok : ∀ e ∈ entries, e.isFile = true → endsWith e.filePath "info.json" = false →
      validDir e = true ∧ st.fs.canWrite (destination env e) = true) :
    ((installAddOn env st a false).2.status = Status.FullyInstalled ∨
        (installAddOn env st a false).2.status = Status.Restart) ∧
      (getZipPath env a ∉ st.fs.undeletable →
        (installAddOn env (installAddOn env st a false).1
            (installAddOn env st a false).2 false).2.status = Status.NotInstalled ∧
          (installAddOn env (installAddOn env st a false).1
            (installAddOn env st a false).2 false).2.installedFiles =
            (installAddOn env st a false).2.installedFiles) ∧
      (installAddOn env (restoreArchive env (installAddOn env st a false).1 a entries)
          (installAddOn env st a false).2 false).2.status =
          (installAddOn env st a false).2.status ∧
      (installAddOn env (restoreArchive env (installAddOn env st a false).1 a entries)
          (installAddOn env st a false).2 false).2.installedFiles =
          (installAddOn env st a false).2.installedFiles := by
  have hok2 : ∀ e ∈ entries, skipsEntry e = false →
      validDir e = true ∧ st.fs.canWrite (destination env e) = true := by
    intro e he hs
    obtain ⟨h1, h2⟩ := not_manifest_of_not_skipped e hs
    exact hok e he h1 h2
  obtain ⟨e1, e2, e3⟩ := installAddOn_all_written env st a false entries hd hv hread hz hsum hok2
  generalize installAddOn env st a false = r1 at e1 e2 e3 ⊢
  obtain ⟨s1, a1⟩ := r1
  simp only at e1 e2 e3 ⊢
  have hid : a1.addOnId = a.addOnId := by rw [e1]
  have hzip : getZipPath env a1 = getZipPath env a := by
    unfold getZipPath
    rw [e1]
  have hv1 : a1.isValid = true := by
    rw [e1]
    exact hv
  have hd1 : isDownloading s1 a1 = false := by
    unfold isDownloading at hd ⊢
    rw [hid, e2]
    exact hd
  refine ⟨?_, ?_, ?_⟩
  · rw [e1]
    cases requiresRestart a.type with
    | true => exact Or.inr rfl
    | false => exact Or.inl rfl
  · intro hdel
    have hgone : s1.fs.fileExists (getZipPath env a1) = false := by
      rw [hzip, e3]
      apply FileSys.remove_fileExists
      rw [unzip_undeletable]
      exact hdel
    rw [installAddOn_missing_archive env s1 a1 hd1 hv1 hgone]
    exact ⟨rfl, rfl⟩
  · have hd2 : isDownloading (restoreArchive env s1 a entries) a1 = false := hd1
    have hread2 : openZip (restoreArchive env s1 a entries).fs (getZipPath env a1) =
        some entries := by
      rw [hzip]
      unfold restoreArchive openZip
      simp only
      rw [FileSys.read_write]
    have hmd5 : calculateMd5 env (restoreArchive env s1 a entries).fs (getZipPath env a1) =
        calculateMd5 env st.fs (getZipPath env a) := by
      rw [hzip]
      unfold calculateMd5 restoreArchive
      simp only
      rw [FileSys.read_write, openZip_some _ _ _ hread]
    have hsum2 : a1.type = AddOnType.ADDON_CATALOG ∨
        a1.checksum = calculateMd5 env (restoreArchive env s1 a entries).fs
          (getZipPath env a1) := by
      rw [hmd5, e1]
      exact hsum
    have hunw : (restoreArchive env s1 a entries).fs.unwritable = st.fs.unwritable := by
      unfold restoreArchive
      simp only
      rw [FileSys.write_unwritable, e3, FileSys.remove_unwritable, unzip_unwritable]
    have hok3 : ∀ e ∈ entries, skipsEntry e = false →
        validDir e = true ∧
          (restoreArchive env s1 a entries).fs.canWrite (destination env e) = true := by
      intro e he hs
      rw [FileSys.canWrite_congr st.fs _ _ hunw]
      exact hok2 e he hs
    have hz2 : endsWith (getZipPath env a1) ".zip" = true := by
      rw [hzip]
      exact hz
    obtain ⟨f1, _, _⟩ := installAddOn_all_written env (restoreArchive env s1 a entries) a1
      false entries hd2 hv1 hread2 hz2 hsum2 hok3
    rw [f1]
    have hfiles : removeDuplicates (a1.installedFiles ++ writtenPaths env entries) =
        a1.installedFiles := by
      have hl : a1.installedFiles =
          removeDuplicates (a.installedFiles ++ writtenPaths env entries) := by rw [e1]
      apply removeDuplicates_append_of_subset
      · rw [hl]
        exact removeDuplicates_nodup _
      · intro x hx
        rw [hl, removeDuplicates_mem]
        exact List.mem_append_right _ hx
    have hty : a1.type = a.type := by rw [e1]
    have hstat : a1.status =
        if requiresRestart a.type then Status.Restart else Status.FullyInstalled := by
      rw [e1]
    simp only [hfiles, hty]
    exact ⟨hstat.symm, trivial⟩

/-- An instance of the amended C9: the landscape `moon` installed twice from its archive.
-/
theorem installAddOn_twice_witness :
    (moonFirst.2.status = Status.FullyInstalled ∨ moonFirst.2.status = Status.Restart) ∧
      (getZipPath exampleEnv (moon AddOnType.LANDSCAPE) ∉
          (moonState moonEntries).fs.undeletable →
        moonSecond.2.status = Status.NotInstalled ∧
          moonSecond.2.installedFiles = moonFirst.2.installedFiles) ∧
      moonSecondRestored.2.status = moonFirst.2.status ∧
      moonSecondRestored.2.installedFiles = moonFirst.2.installedFiles :=
  installAddOn_twice exampleEnv (moonState moonEntries) (moon AddOnType.LANDSCAPE) moonEntries
    (by decide) (by decide) (by decide) (by decide) (by decide) (by decide)

/-! ## Installation from a file -/

theorem installFromDisk_addon (env : Env) (st : Mgr) (a : AddOn) :
    (installFromDisk env st a).2 =
      { a with
        status := (installFromDisk env st a).2.status
        installedFiles := (installFromDisk env st a).2.installedFiles } := by
  cases hx : reachesExtraction env st a with
  | false =>
    rcases (installFromDisk_not_reached env st a hx).2 with h | h | h <;> rw [h] <;> rfl
  | true =>
    rw [(installFromDisk_reached env st a hx).1]
    have h := unzip_addon env st (a.setStatus Status.Installing)
    exact h

theorem restartOrDownload_addon (r : Mgr × AddOn) (t : Bool) :
    (restartOrDownload r t).2 = r.2.setStatus (restartOrDownload r t).2.status := by
  unfold restartOrDownload
  split_ifs <;> rfl

/-- `installAddOn` changes nothing of the add-on but its status and its installed files.
-/
theorem installAddOn_addon (env : Env) (st : Mgr) (a : AddOn) (t : Bool) :
    (installAddOn env st a t).2 =
      { a with
        status := (installAddOn env st a t).2.status
        installedFiles := (installAddOn env st a t).2.installedFiles } := by
  unfold installAddOn
  split_ifs
  · rfl
  · rfl
  · rw [restartOrDownload_addon]
    generalize (restartOrDownload (installFromDisk env st a) t).2.status = s
    rw [installFromDisk_addon]
    rfl

theorem installAddOn_isValid (env : Env) (st : Mgr) (a : AddOn) (t : Bool) :
    (installAddOn env st a t).2.isValid = a.isValid := by
  rw [installAddOn_addon]
  rfl

/-- What holds of C11: when the id of the inspected add-on is in neither hash, the
installation ends with `FullyInstalled` and the user catalog can be written, the add-on
is in `m_addonsInstalled` and in the catalog loaded from the user catalog document. -/
theorem installInspected_persists (env : Env) (st : Mgr) (a : AddOn)
    (hv : a.isValid = true)
    (hav : QHash.value st.m_addonsAvailable a.addOnId = none)
    (htu : QHash.value st.m_addonsToUpdate a.addOnId = none)
    (hs : (installAddOn env st a false).2.status = Status.FullyInstalled)
    (hw : (installAddOn env st a false).1.fs.canWrite env.m_sUserAddonJsonPath = true) :
    QHash.value (installInspected env st a).m_addonsInstalled a.addOnId =
        some (installAddOn env st a false).2 ∧
      a.addOnId ∈ QHash.keys
        (loadAddonCatalog env (installInspected env st a).fs env.m_sUserAddonJsonPath) := by
  unfold installInspected
  simp only [hav, htu, hs, if_true]
  constructor
  · rw [QHash.value_insert, installAddOn_addOnId]
    simp
  · have hid := installAddOn_addOnId env st a false
    rw [← hid]
    apply loadAddonCatalog_insertAddonInJson env _ _ _ hw
    rw [installAddOn_isValid]
    exact hv

/-- The defect behind C11: line 235 registers the add-on only when its status is
`FullyInstalled`, and `installAddOn` has turned the status of a successful installation
into `Restart` for the five types that require a restart. The archive of `moon` as a
texture is installed from its file with every entry written; no user catalog document is
written and the catalog loaded from its path has no `moon`. The same archive as a
landscape is written to the user catalog document. -/
theorem installAddOnFromFile_restart_not_persisted :
    (∃ st, installAddOnFromFile exampleEnv (moonState moonTextureEntries) moonZip =
      Except.ok st ∧ st = moonTextureInstalledState) ∧
      moonTextureInstalledState.fs.fileExists "/home/u/.stellarium/textures/moon.png" = true ∧
      moonTextureInstalledState.fs.fileExists exampleEnv.m_sUserAddonJsonPath = false ∧
      "moon" ∉ QHash.keys
        (loadAddonCatalog exampleEnv moonTextureInstalledState.fs
          exampleEnv.m_sUserAddonJsonPath) ∧
      "moon" ∈ QHash.keys
        (loadAddonCatalog exampleEnv moonInstalledState.fs exampleEnv.m_sUserAddonJsonPath) := by
  refine ⟨⟨_, rfl, rfl⟩, ?_, ?_, ?_, ?_⟩ <;> decide

theorem manifestLoop_checksum (env : Env) (fs : FileSys) (filePath : String)
    (es : List FileInfo) (a : AddOn)
    (h : manifestLoop env fs filePath es = Except.ok (some a)) :
    a.checksum = calculateMd5 env fs filePath := by
  induction es with
  | nil =>
    simp only [manifestLoop, Except.ok.injEq] at h
    exact Option.noConfusion h
  | cons info rest ih =>
    unfold manifestLoop at h
    split_ifs at h with h1 h2
    · exact ih h
    · cases hm : info.data.members with
      | nil =>
        rw [hm] at h
        exact Except.noConfusion h
      | cons e t =>
        rw [hm] at h
        simp only [Except.ok.injEq, Option.some.injEq] at h
        rw [← h]
        rfl
    · exact ih h

/-- The checksum of the add-on that `getAddOnFromZip` gives is the digest of the archive.
-/
theorem getAddOnFromZip_checksum (env : Env) (fs : FileSys) (filePath : String) (a : AddOn)
    (h : getAddOnFromZip env fs filePath = Except.ok (some a)) :
    a.checksum = calculateMd5 env fs filePath := by
  unfold getAddOnFromZip at h
  cases hz : openZip fs filePath with
  | none =>
    rw [hz] at h
    simp only [Except.ok.injEq] at h
    exact Option.noConfusion h
  | some es =>
    rw [hz] at h
    exact manifestLoop_checksum env fs filePath es a h

/-- `getAddOnFromZip` gives an add-on only for a file that is a zip archive. -/
theorem getAddOnFromZip_archive (env : Env) (fs : FileSys) (filePath : String) (a : AddOn)
    (h : getAddOnFromZip env fs filePath = Except.ok (some a)) :
    ∃ es, fs.read filePath = some (Content.zip es) := by
  unfold getAddOnFromZip at h
  cases hz : openZip fs filePath with
  | none =>
    rw [hz] at h
    simp only [Except.ok.injEq] at h
    exact Option.noConfusion h
  | some es => exact ⟨es, openZip_some fs filePath es hz⟩

theorem find_filter_ne (l : List (String × Content)) (path p : String) (h : p ≠ path) :
    List.find? (fun e => decide (e.1 = p)) (l.filter (fun e => decide (e.1 ≠ path))) =
      List.find? (fun e => decide (e.1 = p)) l := by
  induction l with
  | nil => rfl
  | cons e t ih =>
    by_cases hep : e.1 = p
    · have he : e.1 ≠ path := by
        rw [hep]
        exact h
      rw [List.filter_cons_of_pos (by simpa using he), List.find?_cons_of_pos _ (by simpa using hep),
        List.find?_cons_of_pos _ (by simpa using hep)]
    · rw [List.find?_cons_of_neg _ (by simpa using hep)]
      by_cases he : e.1 = path
      · rw [List.filter_cons_of_neg (by simpa using he)]
        exact ih
      · rw [List.filter_cons_of_pos (by simpa using he),
          List.find?_cons_of_neg _ (by simpa using hep)]
        exact ih

theorem FileSys.read_write_ne (fs : FileSys) (path p : String) (c : Content)
    (h : p ≠ path) : (fs.write path c).read p = fs.read p := by
  have h2 : ¬ path = p := fun e => h e.symm
  unfold FileSys.read FileSys.write
  simp only
  rw [List.find?_cons_of_neg _ (by simpa using h2), find_filter_ne _ _ _ h]

/-- Lines 212-225: when the catalog has the id with another checksum, nothing is done.
-/
theorem installInspected_conflict (env : Env) (st : Mgr) (a c : AddOn)
    (hc : QHash.value st.m_addonsAvailable a.addOnId = some c ∨
      (QHash.value st.m_addonsAvailable a.addOnId = none ∧
        QHash.value st.m_addonsToUpdate a.addOnId = some c))
    (hsum : a.checksum ≠ c.checksum) :
    installInspected env st a = st := by
  unfold installInspected
  rcases hc with h | ⟨h1, h2⟩
  · simp only [h, hsum, ne_eq, not_false_eq_true, if_true]
  · simp only [h1, h2, hsum, ne_eq, not_false_eq_true, if_true]

/-- A file that is a zip archive loads as the empty catalog. -/
theorem loadAddonCatalog_archive (env : Env) (fs : FileSys) (path : String)
    (es : List FileInfo) (h : fs.read path = some (Content.zip es)) :
    loadAddonCatalog env fs path = [] := by
  unfold loadAddonCatalog
  rw [h]
  simp [Content.object]

theorem loadAddonCatalog_missing (env : Env) (fs : FileSys) (path : String)
    (h : fs.read path = none) : loadAddonCatalog env fs path = [] := by
  unfold loadAddonCatalog
  rw [h]

theorem loadAddonCatalog_congr (env : Env) (fs fs' : FileSys) (path : String)
    (h : fs'.read path = fs.read path) :
    loadAddonCatalog env fs' path = loadAddonCatalog env fs path := by
  unfold loadAddonCatalog
  rw [h]

/-- C12: when `installAddOnFromFile` inspects an archive whose id is a key of
`m_addonsAvailable`, or else of `m_addonsToUpdate`, with a checksum that differs from the
digest of the archive, the installation is rejected: the three hashes with their add-ons
(and so the status of the catalog entry), the downloads and the signals are as before; no
entry is extracted, the disk differs at most by the copy of the archive at its path in the
add-on directory, where there was no file; the catalog loaded from any document is as
before. -/
theorem installAddOnFromFile_conflict (env : Env) (st : Mgr) (filePath : String)
    (a c : AddOn)
    (hz : getAddOnFromZip env st.fs filePath = Except.ok (some a))
    (hc : QHash.value st.m_addonsAvailable a.addOnId = some c ∨
      (QHash.value st.m_addonsAvailable a.addOnId = none ∧
        QHash.value st.m_addonsToUpdate a.addOnId = some c))
    (hsum : calculateMd5 env st.fs filePath ≠ c.checksum) :
    ∃ st', installAddOnFromFile env st filePath = Except.ok st' ∧
      st'.hashes = st.hashes ∧ st'.downloading = st.downloading ∧
      st'.signals = st.signals ∧
      (∀ p, p ≠ getZipPath env a → st'.fs.read p = st.fs.read p) ∧
      (st'.fs.read (getZipPath env a) = st.fs.read (getZipPath env a) ∨
        (st.fs.read (getZipPath env a) = none ∧
          st'.fs.read (getZipPath env a) = st.fs.read filePath)) ∧
      (∀ p, loadAddonCatalog env st'.fs p = loadAddonCatalog env st.fs p) := by
  have hsum2 : a.checksum ≠ c.checksum := by
    rw [getAddOnFromZip_checksum env st.fs filePath a hz]
    exact hsum
  have hsame : ∃ st', Except.ok st = (Except.ok st' : Except Fault Mgr) ∧
      st'.hashes = st.hashes ∧ st'.downloading = st.downloading ∧
      st'.signals = st.signals ∧
      (∀ p, p ≠ getZipPath env a → st'.fs.read p = st.fs.read p) ∧
      (st'.fs.read (getZipPath env a) = st.fs.read (getZipPath env a) ∨
        (st.fs.read (getZipPath env a) = none ∧
          st'.fs.read (getZipPath env a) = st.fs.read filePath)) ∧
      (∀ p, loadAddonCatalog env st'.fs p = loadAddonCatalog env st.fs p) :=
    ⟨st, rfl, rfl, rfl, rfl, fun _ _ => rfl, Or.inl rfl, fun _ => rfl⟩
  unfold installAddOnFromFile
  rw [hz]
  simp only
  split_ifs with hv hdir
  · exact hsame
  · cases hcp : copyFile st.fs filePath (getZipPath env a) with
    | none => exact hsame
    | some fs =>
      simp only
      have hst : installInspected env { st with fs := fs } a = { st with fs := fs } :=
        installInspected_conflict env { st with fs := fs } a c hc hsum2
      rw [hst]
      obtain ⟨es, hes⟩ := getAddOnFromZip_archive env st.fs filePath a hz
      unfold copyFile at hcp
      rw [hes] at hcp
      simp only at hcp
      split_ifs at hcp with hex
      simp only [Option.some.injEq] at hcp
      have hnone : st.fs.read (getZipPath env a) = none := by
        simp only [Bool.or_eq_true, not_or, Bool.not_eq_true, FileSys.fileExists] at hex
        cases hr : st.fs.read (getZipPath env a) with
        | none => rfl
        | some x =>
          rw [hr] at hex
          exact absurd hex.1 (by simp)
      refine ⟨_, rfl, rfl, rfl, rfl, ?_, ?_, ?_⟩
      · intro p hp
        simp only
        rw [← hcp]
        exact FileSys.read_write_ne _ _ _ _ hp
      · right
        refine ⟨hnone, ?_⟩
        simp only
        rw [← hcp, FileSys.read_write, hes]
      · intro p
        simp only
        by_cases hp : p = getZipPath env a
        · subst hp
          rw [loadAddonCatalog_missing env st.fs _ hnone]
          apply loadAddonCatalog_archive env fs _ es
          rw [← hcp, FileSys.read_write]
        · apply loadAddonCatalog_congr
          rw [← hcp]
          exact FileSys.read_write_ne _ _ _ _ hp
  · rw [installInspected_conflict env st a c hc hsum2]
    exact hsame

/-- An instance of C12: the archive `/tmp/moon.zip` of `moon` has digest `abc`, the
available catalog has `moon` with checksum `zzz`. -/
theorem installAddOnFromFile_conflict_witness :
    ∃ st', installAddOnFromFile exampleEnv conflictState "/tmp/moon.zip" = Except.ok st' ∧
      st'.hashes = conflictState.hashes ∧ st'.downloading = conflictState.downloading ∧
      st'.signals = conflictState.signals ∧
      (∀ p, p ≠ getZipPath exampleEnv moonFromZip →
        st'.fs.read p = conflictState.fs.read p) ∧
      (st'.fs.read (getZipPath exampleEnv moonFromZip) =
          conflictState.fs.read (getZipPath exampleEnv moonFromZip) ∨
        (conflictState.fs.read (getZipPath exampleEnv moonFromZip) = none ∧
          st'.fs.read (getZipPath exampleEnv moonFromZip) =
            conflictState.fs.read "/tmp/moon.zip")) ∧
      (∀ p, loadAddonCatalog exampleEnv st'.fs p =
        loadAddonCatalog exampleEnv conflictState.fs p) :=
  installAddOnFromFile_conflict exampleEnv conflictState "/tmp/moon.zip" moonFromZip
    { moon AddOnType.LANDSCAPE with checksum := "zzz" } (by rfl) (Or.inl (by decide))
    (by decide)

/-! ## Partial removal -/

theorem deletionFails_iff (fs : FileSys) (path : String) :
    deletionFails fs path = (fs.fileExists path && decide (path ∈ fs.undeletable)) := by
  unfold deletionFails FileSys.remove
  cases he : fs.fileExists path with
  | false => rfl
  | true =>
    by_cases hu : path ∈ fs.undeletable
    · simp [hu]
    · simp [hu]

theorem FileSys.remove_fileExists_ne (fs : FileSys) (path p : String) (h : p ≠ path) :
    (fs.remove path).2.fileExists p = fs.fileExists p := by
  unfold FileSys.remove
  split_ifs
  · unfold FileSys.fileExists FileSys.read
    simp only
    rw [find_filter_ne _ _ _ h]
  · rfl

/-- Removing a file does not change for which paths the deletion fails. -/
theorem deletionFails_remove (fs : FileSys) (path p : String)
    (h : (fs.remove path).1 = true) :
    deletionFails (fs.remove path).2 p = deletionFails fs p := by
  have hdel : path ∉ fs.undeletable := by
    unfold FileSys.remove at h
    split_ifs at h with hc
    simp only [Bool.and_eq_true, decide_eq_true_eq] at hc
    exact hc.2
  rw [deletionFails_iff, deletionFails_iff, FileSys.remove_undeletable]
  by_cases hp : p = path
  · subst hp
    simp [hdel]
  · rw [FileSys.remove_fileExists_ne fs path p hp]

/-- The loop of `removeAddOn` over the files still to visit, when the local list is `pre`,
files visited before whose deletion failed, followed by the files still to visit: the
list is left with `pre` and the files whose deletion fails, in their order, and the
status is `PartiallyInstalled` as soon as one deletion fails. -/
theorem removeLoop_spec (rest : List String) (fs : FileSys) (a : AddOn) (pre : List String)
    (hpre : ∀ x ∈ pre, deletionFails fs x = true) :
    (removeLoop rest fs a (pre ++ rest)).installedFiles =
        pre ++ rest.filter (deletionFails fs) ∧
      (removeLoop rest fs a (pre ++ rest)).addon =
        if rest.any (deletionFails fs) then a.setStatus Status.PartiallyInstalled else a := by
  induction rest generalizing fs a pre with
  | nil => simp [removeLoop]
  | cons x t ih =>
    have herase : deletionFails fs x = false → (pre ++ x :: t).erase x = pre ++ t := by
      intro hx
      have hnotin : x ∉ pre := by
        intro hmem
        rw [hpre x hmem] at hx
        exact Bool.noConfusion hx
      rw [List.erase_append_right _ hnotin, List.erase_cons_head]
    unfold removeLoop
    by_cases he : fs.fileExists x = true
    · rw [if_neg (by simp [he])]
      by_cases hr : (fs.remove x).1 = true
      · have hx : deletionFails fs x = false := by simp [deletionFails, hr]
        rw [if_pos hr, herase hx]
        have hpre2 : ∀ y ∈ pre, deletionFails (fs.remove x).2 y = true := by
          intro y hy
          rw [deletionFails_remove fs x y hr]
          exact hpre y hy
        have := ih (fs.remove x).2 a pre hpre2
        have hfun : deletionFails (fs.remove x).2 = deletionFails fs :=
          funext (fun p => deletionFails_remove fs x p hr)
        rw [hfun] at this
        simpa [List.filter, List.any, hx] using this
      · have hx : deletionFails fs x = true := by simp [deletionFails, he, hr]
        rw [if_neg hr]
        have hpre2 : ∀ y ∈ pre ++ [x], deletionFails fs y = true := by
          intro y hy
          rcases List.mem_append.mp hy with h1 | h1
          · exact hpre y h1
          · rw [List.mem_singleton] at h1
            rw [h1]
            exact hx
        have := ih fs (a.setStatus Status.PartiallyInstalled) (pre ++ [x]) hpre2
        rw [List.append_assoc, List.singleton_append] at this
        rw [this.1, this.2]
        constructor
        · simp [List.filter, hx]
        · simp only [List.any, hx, Bool.true_or, if_true]
          split_ifs <;> rfl
    · have hx : deletionFails fs x = false := by simp [deletionFails, he]
      rw [if_pos (by simp [he]), herase hx]
      have := ih fs a pre hpre
      simpa [List.filter, List.any, hx] using this

theorem removeFinish_installedFiles (env : Env) (st : Mgr) (a : AddOn)
    (files : List String) : (removeFinish env st a files).2.installedFiles = files := by
  unfold removeFinish
  simp only
  split_ifs <;> rfl

/-- C13: for a valid add-on one of whose recorded installed files exists and cannot be
deleted, `removeAddOn` leaves as installed files exactly the files whose deletion failed,
in their original order, and the status is `PartiallyInstalled`, or `Restart` for a type
that requires a restart. -/
theorem removeAddOn_partial (env : Env) (st : Mgr) (a : AddOn) (hv : a.isValid = true)
    (hex : ∃ f ∈ a.installedFiles, st.fs.fileExists f = true ∧ (st.fs.remove f).1 = false) :
    (removeAddOn env st a).2.installedFiles =
        a.installedFiles.filter (fun f => deletionFails st.fs f) ∧
      (removeAddOn env st a).2.status =
        if requiresRestart a.type then Status.Restart else Status.PartiallyInstalled := by
  have hany : a.installedFiles.any (deletionFails st.fs) = true := by
    rw [List.any_eq_true]
    obtain ⟨f, hf, h1, h2⟩ := hex
    exact ⟨f, hf, by simp [deletionFails, h1, h2]⟩
  have hspec := removeLoop_spec a.installedFiles st.fs (a.setStatus Status.NotInstalled) []
    (fun x hx => absurd hx (List.not_mem_nil _))
  rw [List.nil_append, hany] at hspec
  simp only [if_true, List.nil_append] at hspec
  unfold removeAddOn
  rw [if_neg (by simp [hv])]
  have hfiles : (a.setStatus Status.NotInstalled).installedFiles = a.installedFiles := rfl
  simp only [hfiles, hspec.2]
  rw [if_neg (by simp [AddOn.setStatus]), if_pos (by simp [AddOn.setStatus])]
  rw [removeFinish_installedFiles, removeFinish_status, hspec.1]
  exact ⟨rfl, rfl⟩

/-- An instance of C13: of the three recorded files of the landscape `moon`, the texture
cannot be deleted, the landscape file can, and the last one is not on the disk. -/
theorem removeAddOn_partial_witness :
    (removeAddOn exampleEnv (managerOn lockedDisk)
        { moon AddOnType.LANDSCAPE with
          installedFiles :=
            ["/home/u/.stellarium/textures/moon.png",
              "/home/u/.stellarium/landscapes/moon/a.png",
              "/home/u/.stellarium/landscapes/moon/b.png"] }).2.installedFiles =
        ["/home/u/.stellarium/textures/moon.png"] ∧
      (removeAddOn exampleEnv (managerOn lockedDisk)
        { moon AddOnType.LANDSCAPE with
          installedFiles :=
            ["/home/u/.stellarium/textures/moon.png",
              "/home/u/.stellarium/landscapes/moon/a.png",
              "/home/u/.stellarium/landscapes/moon/b.png"] }).2.status =
        Status.PartiallyInstalled :=
  removeAddOn_partial exampleEnv (managerOn lockedDisk)
    { moon AddOnType.LANDSCAPE with
      installedFiles :=
        ["/home/u/.stellarium/textures/moon.png",
          "/home/u/.stellarium/landscapes/moon/a.png",
          "/home/u/.stellarium/landscapes/moon/b.png"] }
    (by decide) (by decide)

/-! ## Source entries that are not installed -/

/-- The loop of `reloadCatalogues` keeps every item of `m_addonsAvailable` whose key is no
key of the installed catalog. -/
theorem reloadLoop_mem (installed : QHash) (av tu : QHash) (e : String × AddOn)
    (he : e ∈ av) (hk : e.1 ∉ QHash.keys installed) :
    e ∈ (installed.foldl reloadStep (av, tu)).1 := by
  induction installed generalizing av tu with
  | nil => exact he
  | cons x t ih =>
    obtain ⟨k, i⟩ := x
    have hne : e.1 ≠ k := by
      intro h
      apply hk
      rw [h]
      exact List.mem_cons_self _ _
    have hkt : e.1 ∉ QHash.keys t := fun h => hk (List.mem_cons_of_mem _ h)
    have hrem : e ∈ QHash.remove av k := by
      unfold QHash.remove
      rw [List.mem_filter]
      exact ⟨he, by simpa using hne⟩
    rw [List.foldl_cons]
    rw [show reloadStep (av, tu) (k, i) =
      ((reloadStep (av, tu) (k, i)).1, (reloadStep (av, tu) (k, i)).2) from rfl]
    apply ih _ _ _ hkt
    cases hv : QHash.value av k with
    | none =>
      rw [reloadStep_absent av tu k i hv]
      exact he
    | some s =>
      by_cases hc : i.checksum = s.checksum ∨ i.date ≥ s.date
      · rw [reloadStep_drop av tu k i s hv hc]
        exact hrem
      · rw [reloadStep_update av tu k i s hv hc]
        exact hrem

/-- C14: after `reloadCatalogues`, every item of the merged source catalog whose id is no
key of the installed catalog is an item of `m_addonsAvailable`, with the same add-on, and
`value` gives for the id what it gave in the merged catalog; every key of
`m_addonsToUpdate` is a key of the installed catalog. -/
theorem reloadCatalogues_passes_through (env : Env) (st : Mgr) (id : String) (s : AddOn)
    (hid : id ∉ QHash.keys (reloadCatalogues env st).m_addonsInstalled)
    (hs : (id, s) ∈ mergedCatalog env st.fs) :
    (id, s) ∈ (reloadCatalogues env st).m_addonsAvailable ∧
      QHash.value (reloadCatalogues env st).m_addonsAvailable id =
        QHash.value (mergedCatalog env st.fs) id ∧
      ∀ key, key ∈ QHash.keys (reloadCatalogues env st).m_addonsToUpdate →
        key ∈ QHash.keys (reloadCatalogues env st).m_addonsInstalled := by
  refine ⟨?_, ?_, ?_⟩
  · exact reloadLoop_mem _ _ _ (id, s) hs hid
  · rw [reloadCatalogues_available]
    have hnone := (QHash.value_eq_none_iff _ _).mpr hid
    rw [hnone]
    rfl
  · intro key hkey
    exact ((reloadCatalogues_partitioned env st) key).2 hkey

/-- An instance of C14: `y` is offered and not installed, `x` is installed and offered
with a newer date and another checksum. -/
theorem reloadCatalogues_passes_through_witness :
    ("y", addonY) ∈ (reloadCatalogues exampleEnv stateXY).m_addonsAvailable ∧
      QHash.value (reloadCatalogues exampleEnv stateXY).m_addonsAvailable "y" =
        QHash.value (mergedCatalog exampleEnv stateXY.fs) "y" ∧
      ∀ key, key ∈ QHash.keys (reloadCatalogues exampleEnv stateXY).m_addonsToUpdate →
        key ∈ QHash.keys (reloadCatalogues exampleEnv stateXY).m_addonsInstalled :=
  reloadCatalogues_passes_through exampleEnv stateXY "y" addonY (by decide) (by decide)

/-! ## What `unzip` writes and what it records -/

/-- The local list of the loop of `unzip` is the list it started with, followed by the
paths at which the loop wrote. -/
theorem unzipLoop_installedFiles (env : Env) (es : List FileInfo) (fs : FileSys) (a : AddOn)
    (files : List String) :
    (unzipLoop env es fs a files).installedFiles = files ++ loopWrites env es fs := by
  induction es generalizing fs a files with
  | nil => simp [unzipLoop, loopWrites]
  | cons info rest ih =>
    unfold unzipLoop loopWrites
    split_ifs
    · exact ih fs a files
    · simp
    · exact ih _ _ _
    · rw [ih]
      simp

theorem FileSys.fileExists_write (fs : FileSys) (path p : String) (c : Content)
    (h : p = path ∨ fs.fileExists p = true) : (fs.write path c).fileExists p = true := by
  by_cases hp : p = path
  · subst hp
    unfold FileSys.fileExists
    rw [FileSys.read_write]
    rfl
  · rcases h with h | h
    · exact absurd h hp
    · unfold FileSys.fileExists at h ⊢
      rw [FileSys.read_write_ne _ _ _ _ hp]
      exact h

/-- A file that exists at a path that can be written is still there after the loop of
`unzip`. -/
theorem unzipLoop_keeps_file (env : Env) (es : List FileInfo) (fs : FileSys) (a : AddOn)
    (files : List String) (p : String) (hw : fs.canWrite p = true)
    (he : fs.fileExists p = true) :
    (unzipLoop env es fs a files).fs.fileExists p = true := by
  induction es generalizing fs a files with
  | nil => exact he
  | cons info rest ih =>
    have hstep : ∀ fs' : FileSys, fs'.unwritable = fs.unwritable → fs'.canWrite p = true := by
      intro fs' h
      rw [FileSys.canWrite_congr fs fs' p h]
      exact hw
    unfold unzipLoop
    split_ifs with h1 h2 h3
    · exact ih fs a files hw he
    · exact he
    · apply ih _ _ _ (hstep _ (FileSys.remove_unwritable fs _))
      by_cases hp : p = destination env info
      · subst hp
        rw [hstep _ (FileSys.remove_unwritable fs _)] at h3
        exact absurd h3 (by simp)
      · rw [FileSys.remove_fileExists_ne fs _ p hp]
        exact he
    · apply ih _ _ _ (hstep _ (by rw [FileSys.write_unwritable, FileSys.remove_unwritable]))
      apply FileSys.fileExists_write
      by_cases hp : p = destination env info
      · exact Or.inl hp
      · right
        rw [FileSys.remove_fileExists_ne fs _ p hp]
        exact he

/-- Every path at which the loop of `unzip` wrote holds a file when the loop ends. -/
theorem loopWrites_exist (env : Env) (es : List FileInfo) (fs : FileSys) (a : AddOn)
    (files : List String) (p : String) (hp : p ∈ loopWrites env es fs) :
    (unzipLoop env es fs a files).fs.fileExists p = true := by
  induction es generalizing fs a files with
  | nil => exact absurd hp (List.not_mem_nil _)
  | cons info rest ih =>
    unfold loopWrites at hp
    unfold unzipLoop
    split_ifs at hp ⊢ with h1 h2 h3
    · exact ih fs a files hp
    · exact absurd hp (List.not_mem_nil _)
    · exact ih _ _ _ hp
    · rcases List.mem_cons.mp hp with h | h
      · subst h
        apply unzipLoop_keeps_file
        · simp only [Bool.not_eq_true', Bool.not_eq_false] at h3
          rw [FileSys.canWrite_congr (fs.remove (destination env info)).2 _ _
            (FileSys.write_unwritable _ _ _)]
          exact h3
        · exact FileSys.fileExists_write _ _ _ _ (Or.inl rfl)
      · exact ih _ _ _ h

/-- What holds of C16: when `unzip` does not end with `InvalidDestination`, every path at
which it wrote is one of the installed files of the add-on. -/
theorem unzip_records_writes (env : Env) (st : Mgr) (a : AddOn) (p : String)
    (hs : (unzip env st a).2.status ≠ Status.InvalidDestination)
    (hp : p ∈ loopWrites env (fileInfoList (openZip st.fs (getZipPath env a))) st.fs) :
    p ∈ (unzip env st a).2.installedFiles := by
  have hfiles : (unzipEntries env st a).installedFiles =
      a.installedFiles ++
        loopWrites env (fileInfoList (openZip st.fs (getZipPath env a))) st.fs :=
    unzipLoop_installedFiles _ _ _ _ _
  rw [unzip_eq] at hs ⊢
  split_ifs at hs ⊢ with hr
  · exfalso
    rcases unzipEntries_status env st a with ⟨_, h2⟩ | ⟨h1, _⟩
    · exact hs h2
    · rw [h1] at hr
      exact absurd hr Bool.false_ne_true
  · simp only [AddOn.setInstalledFiles]
    rw [removeDuplicates_mem, hfiles]
    exact List.mem_append_right _ hp

/-- The defect behind C16: the `return` of line 470 leaves `unzip` before lines 492-494
store the list of installed files. The archive has the entries `textures/a` and `evil/x`;
`unzip` writes `textures/a`, ends with `InvalidDestination`, and the installed files of the
add-on are as before: none. -/
theorem unzip_invalid_destination_forgets_writes :
    loopWrites exampleEnv [fileEntry "textures/a", fileEntry "evil/x"]
        (moonState [fileEntry "textures/a", fileEntry "evil/x"]).fs =
        ["/home/u/.stellarium/textures/a"] ∧
      (moonState [fileEntry "textures/a", fileEntry "evil/x"]).fs.fileExists
        "/home/u/.stellarium/textures/a" = false ∧
      (unzip exampleEnv (moonState [fileEntry "textures/a", fileEntry "evil/x"])
        (moon AddOnType.LANDSCAPE)).1.fs.fileExists "/home/u/.stellarium/textures/a" = true ∧
      (unzip exampleEnv (moonState [fileEntry "textures/a", fileEntry "evil/x"])
        (moon AddOnType.LANDSCAPE)).2.status = Status.InvalidDestination ∧
      (unzip exampleEnv (moonState [fileEntry "textures/a", fileEntry "evil/x"])
        (moon AddOnType.LANDSCAPE)).2.installedFiles = [] := by
  decide

/-! ## Destinations that cannot be written -/

theorem FileSys.canWrite_eq (fs fs' : FileSys) (h : fs'.unwritable = fs.unwritable) :
    fs'.canWrite = fs.canWrite :=
  funext (fun p => FileSys.canWrite_congr fs fs' p h)

/-- When every entry that is not skipped has a valid directory, the loop of `unzip` runs
to the end; the status is `UnableToWrite` as soon as the destination of one of these
entries cannot be written, and the loop writes all of them whose destination can be
written. -/
theorem unzipLoop_all_valid (env : Env) (es : List FileInfo) (fs : FileSys) (a : AddOn)
    (files : List String)
    (hok : ∀ e ∈ es, skipsEntry e = false → validDir e = true) :
    (unzipLoop env es fs a files).returned = false ∧
      (unzipLoop env es fs a files).addon =
        (if es.any (fun e => !skipsEntry e && !fs.canWrite (destination env e)) then
          a.setStatus Status.UnableToWrite else a) ∧
      loopWrites env es fs =
        (es.filter (fun e => !skipsEntry e && fs.canWrite (destination env e))).map
          (destination env) := by
  induction es generalizing fs a files with
  | nil => simp [unzipLoop, loopWrites]
  | cons e rest ih =>
    have hrest : ∀ x ∈ rest, skipsEntry x = false → validDir x = true :=
      fun x hx => hok x (List.mem_cons_of_mem _ hx)
    unfold unzipLoop loopWrites
    cases hs : skipsEntry e with
    | true =>
      simp only [if_true]
      have := ih fs a files hrest
      simpa [List.any, List.filter, hs] using this
    | false =>
      have hd := hok e (List.mem_cons_self _ _) hs
      have hcw : (fs.remove (destination env e)).2.canWrite = fs.canWrite :=
        FileSys.canWrite_eq fs _ (FileSys.remove_unwritable fs _)
      simp only [Bool.false_eq_true, if_false, hd, Bool.not_true, hcw]
      cases hw : fs.canWrite (destination env e) with
      | false =>
        simp only [Bool.not_false, if_true]
        have := ih (fs.remove (destination env e)).2 (a.setStatus Status.UnableToWrite)
          files hrest
        rw [hcw] at this
        refine ⟨this.1, ?_, ?_⟩
        · rw [this.2.1]
          simp only [List.any, hs, hw, Bool.not_false, Bool.and_self, Bool.true_or, if_true]
          split_ifs <;> rfl
        · rw [this.2.2]
          simp [List.filter, hs, hw]
      | true =>
        simp only [Bool.not_true, Bool.false_eq_true, if_false]
        have hcw2 : ((fs.remove (destination env e)).2.write (destination env e)
            (Content.data e.data)).canWrite = fs.canWrite :=
          FileSys.canWrite_eq fs _
            (by rw [FileSys.write_unwritable, FileSys.remove_unwritable])
        have := ih ((fs.remove (destination env e)).2.write (destination env e)
          (Content.data e.data)) a (files ++ [destination env e]) hrest
        rw [hcw2] at this
        refine ⟨this.1, ?_, ?_⟩
        · rw [this.2.1]
          simp [List.any, hs, hw]
        · rw [this.2.2]
          simp [List.filter, hs, hw]

theorem insertAddonInJson_fileExists (env : Env) (fs : FileSys) (a : AddOn)
    (path p : String) (h : fs.fileExists p = true) :
    (insertAddonInJson env fs a path).fileExists p = true := by
  unfold insertAddonInJson
  split_ifs
  · exact FileSys.fileExists_write _ _ _ _ (Or.inr h)
  · exact h

/-- What holds of C15: when every entry of the archive that line 447 does not skip has a
valid directory and the destination of one of them cannot be opened for writing, `unzip`
ends with `UnableToWrite`, the installed files are those from before and the destinations
of the entries that are not skipped and can be written, and each of these destinations
holds a file. -/
theorem unzip_unable_to_write (env : Env) (st : Mgr) (a : AddOn) (entries : List FileInfo)
    (hread : openZip st.fs (getZipPath env a) = some entries)
    (hok : ∀ e ∈ entries, skipsEntry e = false → validDir e = true)
    (hbad : ∃ e ∈ entries, skipsEntry e = false ∧
      st.fs.canWrite (destination env e) = false) :
    (unzip env st a).2.status = Status.UnableToWrite ∧
      (unzip env st a).2.installedFiles =
        removeDuplicates (a.installedFiles ++
          (entries.filter
            (fun e => !skipsEntry e && st.fs.canWrite (destination env e))).map
            (destination env)) ∧
      ∀ e ∈ entries, skipsEntry e = false → st.fs.canWrite (destination env e) = true →
        destination env e ∈ (unzip env st a).2.installedFiles ∧
          (unzip env st a).1.fs.fileExists (destination env e) = true := by
  have he : unzipEntries env st a = unzipLoop env entries st.fs
      (a.setStatus Status.FullyInstalled) a.installedFiles := by
    unfold unzipEntries
    rw [hread]
    rfl
  obtain ⟨h1, h2, h3⟩ := unzipLoop_all_valid env entries st.fs
    (a.setStatus Status.FullyInstalled) a.installedFiles hok
  have hany : entries.any
      (fun e => !skipsEntry e && !st.fs.canWrite (destination env e)) = true := by
    rw [List.any_eq_true]
    obtain ⟨e, hmem, hs, hw⟩ := hbad
    exact ⟨e, hmem, by simp [hs, hw]⟩
  rw [hany] at h2
  simp only [if_true] at h2
  have hfiles := unzipLoop_installedFiles env entries st.fs
    (a.setStatus Status.FullyInstalled) a.installedFiles
  rw [h3] at hfiles
  have hres : (unzip env st a).2 =
      ((a.setStatus Status.FullyInstalled).setStatus Status.UnableToWrite).setInstalledFiles
        (removeDuplicates (a.installedFiles ++
          (entries.filter
            (fun e => !skipsEntry e && st.fs.canWrite (destination env e))).map
            (destination env))) := by
    rw [unzip_eq, he, h1, h2, hfiles]
    rfl
  refine ⟨?_, ?_, ?_⟩
  · rw [hres]
    rfl
  · rw [hres]
    rfl
  · intro e hmem hs hw
    have hin : destination env e ∈ loopWrites env entries st.fs := by
      rw [h3, List.mem_map]
      exact ⟨e, List.mem_filter.mpr ⟨hmem, by simp [hs, hw]⟩, rfl⟩
    constructor
    · rw [hres]
      simp only [AddOn.setInstalledFiles]
      rw [removeDuplicates_mem]
      apply List.mem_append_right
      rw [← h3]
      exact hin
    · have hex := loopWrites_exist env entries st.fs (a.setStatus Status.FullyInstalled)
        a.installedFiles _ hin
      rw [unzip_eq, he, h1]
      simp only [Bool.false_eq_true, if_false]
      exact insertAddonInJson_fileExists env _ _ _ _ hex

/-- The defect behind C15 (and C5, C19): line 447 skips every entry whose path contains
`info.json`. The entry `textures/info.json.png` is a file, is no manifest and has a valid
directory. When its destination is the only one that cannot be written, `unzip` does not
try it and ends with `FullyInstalled`; when its destination can be written and that of
`textures/a` cannot, `unzip` ends with `UnableToWrite` and has not written it. -/
theorem unzip_skips_allowed_entry :
    (fileEntry "textures/info.json.png").isFile = true ∧
      endsWith (fileEntry "textures/info.json.png").filePath "info.json" = false ∧
      validDir (fileEntry "textures/info.json.png") = true ∧
      (unzip exampleEnv
        (moonStateUnwritable [fileEntry "textures/info.json.png", fileEntry "textures/a"]
          ["/home/u/.stellarium/textures/info.json.png"])
        (moon AddOnType.LANDSCAPE)).2.status = Status.FullyInstalled ∧
      (unzip exampleEnv
        (moonStateUnwritable [fileEntry "textures/a", fileEntry "textures/info.json.png"]
          ["/home/u/.stellarium/textures/a"])
        (moon AddOnType.LANDSCAPE)).2.status = Status.UnableToWrite ∧
      (unzip exampleEnv
        (moonStateUnwritable [fileEntry "textures/a", fileEntry "textures/info.json.png"]
          ["/home/u/.stellarium/textures/a"])
        (moon AddOnType.LANDSCAPE)).1.fs.fileExists
          "/home/u/.stellarium/textures/info.json.png" = false := by
  decide

/-! ## Persisting and loading -/

theorem splitChars_cons_ne (sep c : Char) (cs : List Char) (h : c ≠ sep) :
    splitChars sep (c :: cs) =
      match splitChars sep cs with
      | [] => [[c]]
      | x :: t => (c :: x) :: t := by
  simp only [splitChars, if_neg h]

theorem splitChars_append (sep : Char) (x r : List Char) (h : sep ∉ x) :
    splitChars sep (x ++ sep :: r) = x :: splitChars sep r := by
  induction x with
  | nil => simp [splitChars]
  | cons c cs ih =>
    have hc : c ≠ sep := fun e => h (by rw [e]; exact List.mem_cons_self _ _)
    have hcs : sep ∉ cs := fun e => h (List.mem_cons_of_mem _ e)
    rw [List.cons_append, splitChars_cons_ne sep c _ hc, ih hcs]

theorem splitChars_no_sep (sep : Char) (x : List Char) (h : sep ∉ x) :
    splitChars sep x = [x] := by
  induction x with
  | nil => rfl
  | cons c cs ih =>
    have hc : c ≠ sep := fun e => h (by rw [e]; exact List.mem_cons_self _ _)
    have hcs : sep ∉ cs := fun e => h (List.mem_cons_of_mem _ e)
    rw [splitChars_cons_ne sep c _ hc, ih hcs]

/-- Splitting at `sep` undoes joining with `sep` for pieces without `sep`. -/
theorem splitChars_joinChars (sep : Char) (xs : List (List Char)) (hne : xs ≠ [])
    (h : ∀ x ∈ xs, sep ∉ x) : splitChars sep (joinChars sep xs) = xs := by
  induction xs with
  | nil => exact absurd rfl hne
  | cons x t ih =>
    cases t with
    | nil => exact splitChars_no_sep sep x (h x (List.mem_cons_self _ _))
    | cons y l =>
      unfold joinChars
      rw [splitChars_append sep x _ (h x (List.mem_cons_self _ _)),
        ih (List.cons_ne_nil _ _) (fun z hz => h z (List.mem_cons_of_mem _ hz))]

theorem joinChars_ne_nil (sep : Char) (xs : List (List Char)) (hne : xs ≠ [])
    (h : ∀ x ∈ xs, x ≠ []) : joinChars sep xs ≠ [] := by
  cases xs with
  | nil => exact absurd rfl hne
  | cons x t =>
    have hx := h x (List.mem_cons_self _ _)
    cases t with
    | nil => exact hx
    | cons y l =>
      unfold joinChars
      intro he
      exact hx (List.append_eq_nil.mp he).1

/-- The textures that are read back from their comma-joined string are the textures that
were joined, when no name is empty or has a comma. -/
theorem splitCommas_joinCommas (l : List String)
    (h : ∀ t ∈ l, t ≠ "" ∧ ',' ∉ t.data) : splitCommas (joinCommas l) = l := by
  cases l with
  | nil => rfl
  | cons x t =>
    have hne : joinChars ',' ((x :: t).map String.data) ≠ [] := by
      apply joinChars_ne_nil
      · simp
      · intro y hy
        obtain ⟨z, hz, rfl⟩ := List.mem_map.mp hy
        intro he
        apply (h z hz).1
        cases z
        simp only at he
        rw [he]
    have hs : joinCommas (x :: t) ≠ "" := by
      unfold joinCommas
      intro he
      apply hne
      have := congrArg String.data he
      exact this
    unfold splitCommas
    rw [if_neg hs]
    unfold joinCommas
    simp only
    rw [splitChars_joinChars]
    · rw [List.map_map]
      have : (String.mk ∘ String.data) = id := by
        funext z
        rfl
      rw [this, List.map_id]
    · simp
    · intro y hy
      obtain ⟨z, hz, rfl⟩ := List.mem_map.mp hy
      exact (h z hz).2

/-- The constructor gives back the add-on from the attributes that `insertAddonInJson`
writes for it, when no texture name is empty or has a comma. -/
theorem AddOn.new_attributes (a : AddOn) (h : ∀ t ∈ a.textures, t ≠ "" ∧ ',' ∉ t.data) :
    AddOn.new a.addOnId a.attributes = a := by
  unfold AddOn.new AddOn.attributes
  simp only [splitCommas_joinCommas a.textures h]

/-- The fold of `loadAddonCatalog` leaves a key alone that the document does not have. -/
theorem loadFold_value_absent (l : List (String × Attributes)) (acc : QHash) (key : String)
    (h : key ∉ l.map Prod.fst) :
    QHash.value (l.foldl
      (fun addons e =>
        if (AddOn.new e.1 e.2).isValid then
          QHash.insert addons (AddOn.new e.1 e.2).addOnId (AddOn.new e.1 e.2)
        else addons) acc) key = QHash.value acc key := by
  induction l generalizing acc with
  | nil => rfl
  | cons e t ih =>
    have hne : e.1 ≠ key := fun he => h (by rw [← he]; exact List.mem_cons_self _ _)
    have ht : key ∉ t.map Prod.fst := fun hm => h (List.mem_cons_of_mem _ hm)
    rw [List.foldl_cons, ih _ ht]
    split_ifs
    · rw [QHash.value_insert]
      exact if_neg hne
    · rfl

/-- The fold of `loadAddonCatalog` gives for a key that the document has once the add-on
constructed from its attributes, when that add-on is valid. -/
theorem loadFold_value_present (l : List (String × Attributes)) (acc : QHash) (key : String)
    (v : Attributes) (hn : (l.map Prod.fst).Nodup) (hm : (key, v) ∈ l) :
    QHash.value (l.foldl
      (fun addons e =>
        if (AddOn.new e.1 e.2).isValid then
          QHash.insert addons (AddOn.new e.1 e.2).addOnId (AddOn.new e.1 e.2)
        else addons) acc) key =
      if (AddOn.new key v).isValid then some (AddOn.new key v) else QHash.value acc key := by
  induction l generalizing acc with
  | nil => exact absurd hm (List.not_mem_nil _)
  | cons e t ih =>
    rw [List.map_cons, List.nodup_cons] at hn
    rw [List.foldl_cons]
    rcases List.mem_cons.mp hm with he | ht
    · subst he
      rw [loadFold_value_absent t _ key hn.1]
      split_ifs
      · rw [QHash.value_insert]
        exact if_pos rfl
      · rfl
    · have hne : e.1 ≠ key := by
        intro he
        apply hn.1
        rw [he]
        exact List.mem_map.mpr ⟨(key, v), ht, rfl⟩
      rw [ih _ hn.2 ht]
      split_ifs <;> first | rfl | (rw [QHash.value_insert]; exact if_neg hne)

theorem keys_jsonInsert (l : List (String × Attributes)) (k key : String) (v : Attributes) :
    key ∈ (jsonInsert l k v).map Prod.fst ↔ key = k ∨ key ∈ l.map Prod.fst := by
  induction l with
  | nil => simp [jsonInsert]
  | cons e t ih =>
    obtain ⟨k1, v1⟩ := e
    unfold jsonInsert
    split_ifs with h
    · subst h
      simp
    · simp only [List.map_cons, List.mem_cons, ih]
      tauto

theorem nodup_jsonInsert (l : List (String × Attributes)) (k : String) (v : Attributes)
    (h : (l.map Prod.fst).Nodup) : ((jsonInsert l k v).map Prod.fst).Nodup := by
  induction l with
  | nil => simp [jsonInsert]
  | cons e t ih =>
    obtain ⟨k1, v1⟩ := e
    rw [List.map_cons, List.nodup_cons] at h
    unfold jsonInsert
    split_ifs with hk
    · rw [List.map_cons, List.nodup_cons]
      exact h
    · rw [List.map_cons, List.nodup_cons]
      refine ⟨?_, ih h.2⟩
      rw [keys_jsonInsert]
      rintro (he | he)
      · exact hk he
      · exact h.1 he

/-- `QJsonObject::insert` leaves the members of the other keys as they are. -/
theorem mem_jsonInsert_ne (l : List (String × Attributes)) (k key : String)
    (v w : Attributes) (h : key ≠ k) : (key, w) ∈ jsonInsert l k v ↔ (key, w) ∈ l := by
  induction l with
  | nil =>
    simp only [jsonInsert, List.mem_singleton, Prod.mk.injEq, List.not_mem_nil, iff_false,
      not_and]
    intro he
    exact absurd he h
  | cons e t ih =>
    obtain ⟨k1, v1⟩ := e
    unfold jsonInsert
    split_ifs with hk
    · subst hk
      simp only [List.mem_cons, Prod.mk.injEq]
      constructor
      · rintro (⟨he, _⟩ | he)
        · exact absurd he h
        · exact Or.inr he
      · rintro (⟨he, _⟩ | he)
        · exact absurd he h
        · exact Or.inr he
    · simp only [List.mem_cons, ih]

/-- The catalog loaded from a document with the catalog name and the supported version
is the fold over its add-ons. -/
theorem loadAddonCatalog_eq_fold (env : Env) (fs : FileSys) (path : String)
    (h1 : (readObject fs path).name = "Add-ons Catalog")
    (h2 : (readObject fs path).format = env.ADDON_CATALOG_VERSION) :
    loadAddonCatalog env fs path =
      (readObject fs path).addons.foldl
        (fun addons e =>
          if (AddOn.new e.1 e.2).isValid then
            QHash.insert addons (AddOn.new e.1 e.2).addOnId (AddOn.new e.1 e.2)
          else addons) [] := by
  unfold readObject at h1 h2 ⊢
  unfold loadAddonCatalog
  cases hr : fs.read path with
  | none =>
    rw [hr] at h1
    exact absurd h1 (by decide)
  | some c =>
    rw [hr] at h1 h2
    have h1c : c.object.name = "Add-ons Catalog" := h1
    have h2c : c.object.format = env.ADDON_CATALOG_VERSION := h2
    simp only [h1c, h2c, ne_eq, not_true_eq_false, or_self, if_false]

theorem splitChars_ne_nil (sep : Char) (cs : List Char) : splitChars sep cs ≠ [] := by
  cases cs with
  | nil => simp [splitChars]
  | cons c t =>
    unfold splitChars
    split_ifs
    · exact List.cons_ne_nil _ _
    · cases splitChars sep t <;> exact List.cons_ne_nil _ _

theorem joinChars_cons_cons (sep c : Char) (x : List Char) (t : List (List Char)) :
    joinChars sep ((c :: x) :: t) = c :: joinChars sep (x :: t) := by
  cases t <;> rfl

/-- Joining with `sep` undoes splitting at `sep`. -/
theorem joinChars_splitChars (sep : Char) (cs : List Char) :
    joinChars sep (splitChars sep cs) = cs := by
  induction cs with
  | nil => rfl
  | cons c t ih =>
    by_cases hc : c = sep
    · have hs : splitChars sep (c :: t) = [] :: splitChars sep t := by
        simp only [splitChars, if_pos hc]
      rw [hs]
      cases hr : splitChars sep t with
      | nil => exact absurd hr (splitChars_ne_nil sep t)
      | cons y l =>
        rw [hr] at ih
        simp only [joinChars, List.nil_append, ih, hc]
    · rw [splitChars_cons_ne sep c t hc]
      cases hr : splitChars sep t with
      | nil => exact absurd hr (splitChars_ne_nil sep t)
      | cons y l =>
        rw [hr] at ih
        simp only
        rw [joinChars_cons_cons, ih]

/-- The textures that the constructor has read from a string are read back from the
string that `insertAddonInJson` writes for them. -/
theorem splitCommas_read_back (s : String) :
    splitCommas (joinCommas (splitCommas s)) = splitCommas s := by
  by_cases hs : s = ""
  · subst hs
    rfl
  · have hsplit : splitCommas s = (splitChars ',' s.data).map String.mk := by
      unfold splitCommas
      rw [if_neg hs]
    have hjoin : joinCommas (splitCommas s) = s := by
      rw [hsplit]
      unfold joinCommas
      rw [List.map_map]
      have hid : (String.data ∘ String.mk) = id := by
        funext z
        rfl
      rw [hid, List.map_id, joinChars_splitChars]
    rw [hjoin]

/-- The constructor gives back an add-on that the manager holds from the attributes that
`insertAddonInJson` writes for it. -/
theorem AddOn.built_read_back (id : String) (attributes : Attributes) (status : Status)
    (files : List String) :
    AddOn.new (AddOn.built id attributes status files).addOnId
        (AddOn.built id attributes status files).attributes =
      AddOn.built id attributes status files := by
  unfold AddOn.built AddOn.new AddOn.attributes AddOn.setStatus AddOn.setInstalledFiles
  simp only [splitCommas_read_back]

/-- `insertAddonInJson` followed by `loadAddonCatalog`, for an add-on that the constructor
gives back from its written attributes. -/
theorem insertAddonInJson_then_load_of_read_back (env : Env) (fs : FileSys) (a : AddOn)
    (path : String) (hw : fs.canWrite path = true) (hv : a.isValid = true)
    (hback : AddOn.new a.addOnId a.attributes = a)
    (hobj : ((readObject fs path).addons.map Prod.fst).Nodup) :
    readObject (insertAddonInJson env fs a path) path =
        { name := "Add-ons Catalog"
          format := env.ADDON_CATALOG_VERSION
          addons := jsonInsert (readObject fs path).addons a.addOnId a.attributes } ∧
      QHash.value (loadAddonCatalog env (insertAddonInJson env fs a path) path) a.addOnId =
        some a ∧
      (∀ key w, key ≠ a.addOnId →
        ((key, w) ∈ (readObject (insertAddonInJson env fs a path) path).addons ↔
          (key, w) ∈ (readObject fs path).addons)) ∧
      (∀ key, key ≠ a.addOnId → (readObject fs path).name = "Add-ons Catalog" →
        (readObject fs path).format = env.ADDON_CATALOG_VERSION →
        QHash.value (loadAddonCatalog env (insertAddonInJson env fs a path) path) key =
          QHash.value (loadAddonCatalog env fs path) key) := by
  have hins : insertAddonInJson env fs a path =
      fs.write path (Content.data (Data.catalog
        { name := "Add-ons Catalog"
          format := env.ADDON_CATALOG_VERSION
          addons := jsonInsert (readObject fs path).addons a.addOnId a.attributes })) := by
    unfold insertAddonInJson
    rw [if_pos hw]
  have hobject : readObject (insertAddonInJson env fs a path) path =
      { name := "Add-ons Catalog"
        format := env.ADDON_CATALOG_VERSION
        addons := jsonInsert (readObject fs path).addons a.addOnId a.attributes } := by
    rw [hins]
    unfold readObject
    rw [FileSys.read_write]
    rfl
  have hload := loadAddonCatalog_eq_fold env (insertAddonInJson env fs a path) path
    (by rw [hobject]) (by rw [hobject])
  rw [hobject] at hload
  simp only at hload
  have hnodup := nodup_jsonInsert (readObject fs path).addons a.addOnId a.attributes hobj
  refine ⟨hobject, ?_, ?_, ?_⟩
  · rw [hload, loadFold_value_present _ _ a.addOnId a.attributes hnodup (mem_jsonInsert _ _ _),
      hback, hv]
    rfl
  · intro key w hkey
    rw [hobject]
    exact mem_jsonInsert_ne _ _ _ _ _ hkey
  · intro key hkey h1 h2
    rw [hload, loadAddonCatalog_eq_fold env fs path h1 h2]
    by_cases hmem : key ∈ (readObject fs path).addons.map Prod.fst
    · obtain ⟨e, he, hek⟩ := List.mem_map.mp hmem
      obtain ⟨k, w⟩ := e
      simp only at hek
      subst hek
      rw [loadFold_value_present _ _ k w hnodup ((mem_jsonInsert_ne _ _ _ _ _ hkey).mpr he),
        loadFold_value_present _ _ k w hobj he]
    · have hnot : key ∉ (jsonInsert (readObject fs path).addons a.addOnId a.attributes).map
          Prod.fst := by
        rw [keys_jsonInsert]
        rintro (h | h)
        · exact hkey h
        · exact hmem h
      rw [loadFold_value_absent _ _ key hnot, loadFold_value_absent _ _ key hmem]

/-- C17, amended: for a valid add-on as the manager holds it (built by the constructor,
with any status and installed files set since) and a document that can be opened for
reading and writing (its add-ons object having every key once, as a JSON object has),
`insertAddonInJson` leaves a catalog document of the supported version that has the
attributes of the add-on under its id, and `loadAddonCatalog` gives a catalog in which the
id has the add-on, with every attribute as it was; every other id of the document keeps
its attributes in the document, and in the loaded catalog when the document was a catalog
of the supported version. -/
theorem insertAddonInJson_then_load (env : Env) (fs : FileSys) (id : String)
    (attributes : Attributes) (status : Status) (files : List String) (path : String)
    (hw : fs.canWrite path = true)
    (hv : (AddOn.built id attributes status files).isValid = true)
    (hobj : ((readObject fs path).addons.map Prod.fst).Nodup) :
    readObject (insertAddonInJson env fs (AddOn.built id attributes status files) path) path =
        { name := "Add-ons Catalog"
          format := env.ADDON_CATALOG_VERSION
          addons := jsonInsert (readObject fs path).addons id
            (AddOn.built id attributes status files).attributes } ∧
      QHash.value
        (loadAddonCatalog env
          (insertAddonInJson env fs (AddOn.built id attributes status files) path) path) id =
        some (AddOn.built id attributes status files) ∧
      (∀ key w, key ≠ id →
        ((key, w) ∈ (readObject
            (insertAddonInJson env fs (AddOn.built id attributes status files) path)
            path).addons ↔
          (key, w) ∈ (readObject fs path).addons)) ∧
      (∀ key, key ≠ id → (readObject fs path).name = "Add-ons Catalog" →
        (readObject fs path).format = env.ADDON_CATALOG_VERSION →
        QHash.value
          (loadAddonCatalog env
            (insertAddonInJson env fs (AddOn.built id attributes status files) path) path)
          key =
          QHash.value (loadAddonCatalog env fs path) key) :=
  insertAddonInJson_then_load_of_read_back env fs (AddOn.built id attributes status files)
    path hw hv (AddOn.built_read_back id attributes status files) hobj

/-- An instance of the amended C17: the texture `moon`, built from attributes whose
textures are `a,b` and fully installed with one file, is written to a user catalog
document that has the add-on `x`, and the document is loaded. -/
theorem insertAddonInJson_then_load_witness :
    readObject (insertAddonInJson exampleEnv userCatalogDisk moonBuilt
        exampleEnv.m_sUserAddonJsonPath) exampleEnv.m_sUserAddonJsonPath =
        { name := "Add-ons Catalog"
          format := exampleEnv.ADDON_CATALOG_VERSION
          addons :=
            jsonInsert (readObject userCatalogDisk exampleEnv.m_sUserAddonJsonPath).addons
              "moon" moonBuilt.attributes } ∧
      QHash.value
        (loadAddonCatalog exampleEnv
          (insertAddonInJson exampleEnv userCatalogDisk moonBuilt
            exampleEnv.m_sUserAddonJsonPath)
          exampleEnv.m_sUserAddonJsonPath) "moon" = some moonBuilt ∧
      (∀ key w, key ≠ "moon" →
        ((key, w) ∈ (readObject
            (insertAddonInJson exampleEnv userCatalogDisk moonBuilt
              exampleEnv.m_sUserAddonJsonPath)
            exampleEnv.m_sUserAddonJsonPath).addons ↔
          (key, w) ∈ (readObject userCatalogDisk exampleEnv.m_sUserAddonJsonPath).addons)) ∧
      (∀ key, key ≠ "moon" →
        (readObject userCatalogDisk exampleEnv.m_sUserAddonJsonPath).name =
          "Add-ons Catalog" →
        (readObject userCatalogDisk exampleEnv.m_sUserAddonJsonPath).format =
          exampleEnv.ADDON_CATALOG_VERSION →
        QHash.value
          (loadAddonCatalog exampleEnv
            (insertAddonInJson exampleEnv userCatalogDisk moonBuilt
              exampleEnv.m_sUserAddonJsonPath)
            exampleEnv.m_sUserAddonJsonPath)
          key =
          QHash.value
            (loadAddonCatalog exampleEnv userCatalogDisk exampleEnv.m_sUserAddonJsonPath)
            key) :=
  insertAddonInJson_then_load exampleEnv userCatalogDisk "moon" moonTwoTextures.attributes
    Status.FullyInstalled ["/home/u/.stellarium/textures/a"] exampleEnv.m_sUserAddonJsonPath
    (by decide) (by decide) (by decide)

/-- The instance above is no empty case: the loaded catalog has `moon` with the textures
`a` and `b`, and still has `x`, which the document had before. -/
theorem insertAddonInJson_then_load_example :
    moonBuilt.textures = ["a", "b"] ∧
      QHash.value
        (loadAddonCatalog exampleEnv
          (insertAddonInJson exampleEnv userCatalogDisk moonBuilt
            exampleEnv.m_sUserAddonJsonPath)
          exampleEnv.m_sUserAddonJsonPath) "x" = some (addonX 1 "abc") ∧
      QHash.value
        (loadAddonCatalog exampleEnv userCatalogDisk exampleEnv.m_sUserAddonJsonPath) "x" =
        some (addonX 1 "abc") := by
  decide

/-- C17 as it is stated fails for a document that cannot be opened: `insertAddonInJson`
then writes nothing (lines 542-546), and the catalog loaded from the path has no `moon`,
for the valid texture `moon` as the constructor builds it. -/
theorem insertAddonInJson_then_load_counterexample :
    AddOn.built "moon" (moon AddOnType.TEXTURE).attributes Status.NotInstalled [] =
        moon AddOnType.TEXTURE ∧
      (moon AddOnType.TEXTURE).isValid = true ∧
      readOnlyDisk.canWrite exampleEnv.m_sUserAddonJsonPath = false ∧
      insertAddonInJson exampleEnv readOnlyDisk (moon AddOnType.TEXTURE)
        exampleEnv.m_sUserAddonJsonPath = readOnlyDisk ∧
      QHash.value
        (loadAddonCatalog exampleEnv
          (insertAddonInJson exampleEnv readOnlyDisk (moon AddOnType.TEXTURE)
            exampleEnv.m_sUserAddonJsonPath)
          exampleEnv.m_sUserAddonJsonPath) "moon" = none := by
  decide

/-! ## The manifest -/

/-- The defect behind C18: line 389 takes `json.keys().at(0)` without looking whether the
object has a key. For a manifest whose data is `{}`, and for one whose data is not empty
and no JSON object, the access is out of range; `getAddOnFromZip` gives neither an add-on
nor none, and `installAddOnFromFile` does not return a manager. -/
theorem getAddOnFromZip_out_of_range :
    emptyManifest.data.isEmpty = false ∧
      getAddOnFromZip exampleEnv (moonState [emptyManifest]).fs moonZip =
        Except.error Fault.indexOutOfRange ∧
      brokenManifest.data.isEmpty = false ∧
      getAddOnFromZip exampleEnv (moonState [brokenManifest]).fs moonZip =
        Except.error Fault.indexOutOfRange ∧
      installAddOnFromFile exampleEnv (moonState [emptyManifest]) moonZip =
        Except.error Fault.indexOutOfRange :=
  ⟨rfl, rfl, rfl, rfl, rfl⟩

/-- The defect behind C19 (and C5, C15): `getAddOnFromZip` takes as manifest a file whose
path ends in `info.json` (line 377), `unzip` skips every file whose path contains
`info.json` (line 447). The entries `textures/info.json.png` and `evil/info.json.txt` are
files and no manifests, and `unzip` skips both: the first has a valid directory and is not
written, the second has none and the extraction does not end with `InvalidDestination`
but with `FullyInstalled`, the only installed file being `textures/moon.png`. -/
theorem unzip_skips_manifest_lookalikes :
    endsWith "textures/info.json.png" "info.json" = false ∧
      endsWith "evil/info.json.txt" "info.json" = false ∧
      skipsEntry (fileEntry "textures/info.json.png") = true ∧
      skipsEntry (fileEntry "evil/info.json.txt") = true ∧
      validDir (fileEntry "textures/info.json.png") = true ∧
      validDir (fileEntry "evil/info.json.txt") = false ∧
      (unzip exampleEnv (moonState moonEntriesWithLookalikes)
        (moon AddOnType.LANDSCAPE)).2.status = Status.FullyInstalled ∧
      (unzip exampleEnv (moonState moonEntriesWithLookalikes)
        (moon AddOnType.LANDSCAPE)).2.installedFiles =
        ["/home/u/.stellarium/textures/moon.png"] ∧
      (unzip exampleEnv (moonState moonEntriesWithLookalikes)
        (moon AddOnType.LANDSCAPE)).1.fs.fileExists
          "/home/u/.stellarium/textures/info.json.png" = false := by
  decide

/-! ## The statuses of `removeAddOn` -/

/-- C20: for a valid add-on, the status at the end of the loop of `removeAddOn` is
`NotInstalled` or `PartiallyInstalled`, so the branch of lines 344-349 is not taken:
`removeAddOn` does not end with `UnableToRemove`, and the final status is `NotInstalled`,
`PartiallyInstalled` or `Restart`. -/
theorem removeAddOn_never_unableToRemove (env : Env) (st : Mgr) (a : AddOn)
    (hv : a.isValid = true) :
    ((removeLoop a.installedFiles st.fs (a.setStatus Status.NotInstalled)
          a.installedFiles).addon.status = Status.NotInstalled ∨
        (removeLoop a.installedFiles st.fs (a.setStatus Status.NotInstalled)
          a.installedFiles).addon.status = Status.PartiallyInstalled) ∧
      (removeAddOn env st a).2.status ≠ Status.UnableToRemove ∧
      ((removeAddOn env st a).2.status = Status.NotInstalled ∨
        (removeAddOn env st a).2.status = Status.PartiallyInstalled ∨
        (removeAddOn env st a).2.status = Status.Restart) := by
  have hspec := (removeLoop_spec a.installedFiles st.fs (a.setStatus Status.NotInstalled) []
    (fun x hx => absurd hx (List.not_mem_nil _))).2
  rw [List.nil_append] at hspec
  have hloop : (removeLoop a.installedFiles st.fs (a.setStatus Status.NotInstalled)
        a.installedFiles).addon.status = Status.NotInstalled ∨
      (removeLoop a.installedFiles st.fs (a.setStatus Status.NotInstalled)
        a.installedFiles).addon.status = Status.PartiallyInstalled := by
    rw [hspec]
    split_ifs
    · exact Or.inr rfl
    · exact Or.inl rfl
  have hfinal : (removeAddOn env st a).2.status = Status.NotInstalled ∨
      (removeAddOn env st a).2.status = Status.PartiallyInstalled ∨
      (removeAddOn env st a).2.status = Status.Restart := by
    unfold removeAddOn
    rw [if_neg (by simp [hv])]
    have hfiles : (a.setStatus Status.NotInstalled).installedFiles = a.installedFiles := rfl
    simp only [hfiles]
    rcases hloop with h | h
    · rw [if_pos h, removeFinish_status]
      split_ifs
      · exact Or.inr (Or.inr rfl)
      · exact Or.inl h
    · rw [if_neg (by rw [h]; exact fun e => Status.noConfusion e), if_pos h,
        removeFinish_status]
      split_ifs
      · exact Or.inr (Or.inr rfl)
      · exact Or.inr (Or.inl h)
  refine ⟨hloop, ?_, hfinal⟩
  rcases hfinal with h | h | h <;> rw [h] <;> exact fun e => Status.noConfusion e

/-- An instance of C20: the landscape `moon` with a recorded file that cannot be deleted.
-/
theorem removeAddOn_never_unableToRemove_witness :
    (removeAddOn exampleEnv (managerOn lockedDisk)
      { moon AddOnType.LANDSCAPE with
        installedFiles := ["/home/u/.stellarium/textures/moon.png"] }).2.status ≠
      Status.UnableToRemove :=
  (removeAddOn_never_unableToRemove exampleEnv (managerOn lockedDisk)
    { moon AddOnType.LANDSCAPE with
      installedFiles := ["/home/u/.stellarium/textures/moon.png"] } (by decide)).2.1

end StelAddOnMgr
